import Mathlib

/-!
Verification of the Narrator Expressions presence/roster core.

The definitions below are a shallow embedding of `src/index.js`:
text is `List Char`, JS arrays are `List`, JS `null`/`undefined` is
`Option`, and the two loops whose JS counterparts advance an index by a
data-dependent amount are written with an explicit fuel argument (the
wrapper always passes enough fuel, so the embedding coincides with the
source loop on every input on which the source terminates).
-/

namespace NE

/-- A half-open span `[start, stop)` as produced by the span scanner
(`{start, end}` objects in the source; `end` is a Lean keyword). -/
structure Span where
  start : Nat
  stop : Nat
deriving DecidableEq, Repr

/-- The double-quote character, written by code so that no char literal
holds a quote. -/
def dquoteChar : Char := Char.ofNat 34

/-- Membership in `tokens = new Set` of `parseBracketSpans`: the double
quote and the asterisk. -/
def isBracketChar (c : Char) : Bool := c = dquoteChar || c = '*'

/-- Helper for `String.indexOf(ch, i)`: first index `≥ i` (absolute) at
which `c` occurs in the remaining list, where the list given is the
suffix starting at `i`. -/
def idxOfAux (c : Char) : List Char → Nat → Option Nat
  | [], _ => none
  | x :: xs, i => if x = c then some i else idxOfAux c xs (i + 1)

/-- Model of `text.indexOf(c, i)`: absolute index of the first occurrence of `c`
at position `≥ i`, or `none`. -/
def indexOfFrom (text : List Char) (c : Char) (i : Nat) : Option Nat :=
  idxOfAux c (text.drop i) i

/-- The scanning loop of `parseBracketSpans`, from position `i`.  Fuel
decreases by one per step while the position advances by at least one,
so `fuel = text.length` at `i = 0` is always sufficient. -/
def parseBracketSpansAux (text : List Char) : Nat → Nat → List Span
  | _, 0 => []
  | i, fuel + 1 =>
    if h : i < text.length then
      if isBracketChar (text.get ⟨i, h⟩) then
        match indexOfFrom text (text.get ⟨i, h⟩) (i + 1) with
        | none => [⟨i, text.length⟩]
        | some j => ⟨i, j + 1⟩ :: parseBracketSpansAux text (j + 1) fuel
      else
        parseBracketSpansAux text (i + 1) fuel
    else []

/-- Model of `parseBracketSpans(text)` from the source: scan left to right; a
double quote or asterisk opens a span that ends just after the next
occurrence of the same character, or at the end of the text (stopping
the scan) when there is none. -/
def parseBracketSpans (text : List Char) : List Span :=
  parseBracketSpansAux text 0 text.length

/-- The cursor loop of `getNonBracketSpans`, including the final
`if (cursor < text.length)` push (folded into the nil case). -/
def complementLoop (len : Nat) : Nat → List Span → List Span
  | cursor, [] => if cursor < len then [⟨cursor, len⟩] else []
  | cursor, b :: rest =>
    if cursor < b.start then
      ⟨cursor, b.start⟩ :: complementLoop len (max cursor b.stop) rest
    else
      complementLoop len (max cursor b.stop) rest

/-- Model of `getNonBracketSpans(text)`: complement of the bracket spans; the
whole text as a single span when there are no bracket spans. -/
def getNonBracketSpans (text : List Char) : List Span :=
  if (parseBracketSpans text).isEmpty then [⟨0, text.length⟩]
  else complementLoop text.length 0 (parseBracketSpans text)

/-- Decidable test that index `k` lies in span `s`. -/
def spanContains (s : Span) (k : Nat) : Bool :=
  decide (s.start ≤ k) && decide (k < s.stop)

/-- How many spans of the list contain index `k`. -/
def countContaining (spans : List Span) (k : Nat) : Nat :=
  spans.countP (fun s => spanContains s k)

/-- Well-formedness of a span list relative to a window `[lo, hi]`:
spans are in ascending order, each within the window, consecutive spans
do not overlap. -/
def OrderedIn : Nat → Nat → List Span → Prop
  | _, _, [] => True
  | lo, hi, s :: rest => lo ≤ s.start ∧ s.start ≤ s.stop ∧ s.stop ≤ hi ∧ OrderedIn s.stop hi rest

/-! ### Word-regex matcher

`makeWordRegex(name)` builds `(?:^|\W)(escapedName)(?:$|\W)` with flags
`gi`; `getOrderFromText` builds the same pattern without flags.  Since
the name is metacharacter-escaped it behaves as a literal, so matching
is modelled directly: `ci` selects the case-insensitive (`i`-flag)
variant. -/

/-- JS `\w` is `[A-Za-z0-9_]`; this is its characteristic function. -/
def isWordChar (c : Char) : Bool :=
  (decide ('a' ≤ c) && decide (c ≤ 'z')) ||
  (decide ('A' ≤ c) && decide (c ≤ 'Z')) ||
  (decide ('0' ≤ c) && decide (c ≤ '9')) ||
  c = '_'

/-- Literal match of `name` against a prefix of the given suffix of the
haystack, case-insensitively when `ci` is set. -/
def matchesFrom (ci : Bool) : List Char → List Char → Bool
  | [], _ => true
  | _ :: _, [] => false
  | c :: cs, h :: hs =>
    (if ci then c.toLower = h.toLower else decide (c = h)) && matchesFrom ci cs hs

/-- Whether `name` occurs (as a literal) at position `s` of `hay`. -/
def matchesAt (ci : Bool) (name hay : List Char) (s : Nat) : Bool :=
  matchesFrom ci name (hay.drop s)

/-- The trailing `(?:$|\W)` of the word regex, positioned at `e` (the
end of the name): `$` consumes nothing at the end of the string, else a
non-word character is consumed.  Returns the end of the full match. -/
def boundaryEnd (hay : List Char) (e : Nat) : Option Nat :=
  match hay.get? e with
  | none => some e
  | some c => if isWordChar c then none else some (e + 1)

/-- Match of `name` starting at `s` followed by the trailing boundary;
returns the end of the full match. -/
def altMatch (ci : Bool) (name hay : List Char) (s : Nat) : Option Nat :=
  if matchesAt ci name hay s then boundaryEnd hay (s + name.length) else none

/-- One anchored attempt of the word regex at position `p` (the start of
the full match): at `p = 0` the `^` alternative is tried first, then the
`\W` alternative; at `p > 0` only `\W`.  Returns the end of the full
match on success. -/
def attemptAt (ci : Bool) (name hay : List Char) (p : Nat) : Option Nat :=
  if p = 0 then
    match altMatch ci name hay 0 with
    | some e => some e
    | none =>
      match hay.get? 0 with
      | some c => if isWordChar c then none else altMatch ci name hay 1
      | none => none
  else
    match hay.get? p with
    | some c => if isWordChar c then none else altMatch ci name hay (p + 1)
    | none => none

/-- The regex engine's sliding scan: first position `≥ p` at which an
attempt succeeds, together with the end of that match. -/
def scanFrom (ci : Bool) (name hay : List Char) : Nat → Nat → Option (Nat × Nat)
  | 0, _ => none
  | fuel + 1, p =>
    match attemptAt ci name hay p with
    | some e => some (p, e)
    | none => if p < hay.length then scanFrom ci name hay fuel (p + 1) else none

/-- First match of the word regex at position `≥ start`
(`regex.exec` with `lastIndex = start`). -/
def firstMatchFrom (ci : Bool) (name hay : List Char) (start : Nat) : Option (Nat × Nat) :=
  scanFrom ci name hay (hay.length + 1) start

/-- All successive non-overlapping matches (`String.matchAll`): each
match is `(index, end)` and the next scan starts at the previous end. -/
def allMatchesAux (ci : Bool) (name hay : List Char) : Nat → Nat → List (Nat × Nat)
  | 0, _ => []
  | fuel + 1, start =>
    match firstMatchFrom ci name hay start with
    | none => []
    | some pe => pe :: allMatchesAux ci name hay fuel pe.2

/-- Model of `Array.from(hay.matchAll(wordRegex))`, as (index, end) pairs. -/
def wordMatches (ci : Bool) (name hay : List Char) : List (Nat × Nat) :=
  allMatchesAux ci name hay (hay.length + 1) 0

/-! ### Presence counter -/

/-- A span as consumed by the counter: `{start, text}` where `text` is
the substring `text.slice(start, end)` attached by the resolver. -/
structure TSpan where
  start : Nat
  text : List Char
deriving DecidableEq, Repr

/-- Result of `countOccurrencesOutsideBrackets`. -/
structure CountResult where
  count : Nat
  firstIndex : Option Nat
deriving DecidableEq, Repr

/-- The `firstIndex` update of the counter:
`if (firstIndex === null || absIndex < firstIndex) firstIndex = absIndex`. -/
def updMin (fi : Option Nat) (abs : Nat) : Option Nat :=
  match fi with
  | none => some abs
  | some f => if abs < f then some abs else some f

/-- Model of `countOccurrencesOutsideBrackets(name, nonBracketSpans)`: per span,
skip when the span text is empty (`if (!hay) continue`), else count the
matches of the case-insensitive word regex and track the smallest
absolute index `span.start + m.index`. -/
def countOccurrencesOutsideBrackets (name : List Char) (spans : List TSpan) : CountResult :=
  spans.foldl
    (fun acc span =>
      if span.text.isEmpty then acc
      else
        (wordMatches true name span.text).foldl
          (fun a m => ⟨a.count + 1, updMin a.firstIndex (span.start + m.1)⟩) acc)
    ⟨0, none⟩

/-- All absolute match indices `span.start + m.index` of the counter, in
processing order (spec-side flattening used to characterise the fold). -/
def absMatchList (name : List Char) (spans : List TSpan) : List Nat :=
  spans.flatMap (fun span =>
    if span.text.isEmpty then []
    else (wordMatches true name span.text).map (fun m => span.start + m.1))

/-- Fold of `updMin` over a list starting from `fi`. -/
def minAcc (fi : Option Nat) (l : List Nat) : Option Nat :=
  l.foldl updMin fi

/-- Modelled from the spec: "a match requires the name to be preceded
and followed by either a non-word character or the string boundary".
`q` is the position of the name itself. -/
def isWordBoundedAt (ci : Bool) (name hay : List Char) (q : Nat) : Bool :=
  matchesAt ci name hay q &&
  (decide (q = 0) ||
    (match hay.get? (q - 1) with
     | some c => !isWordChar c
     | none => false)) &&
  (match hay.get? (q + name.length) with
   | some c => !isWordChar c
   | none => decide (q + name.length = hay.length))

/-- Modelled from the spec: the positions of all word-bounded
occurrences of `name` in `hay` (what "the number of case-insensitive
occurrences ... preceded and followed by a non-word character or the
string boundary" counts). -/
def wordBoundedPositions (ci : Bool) (name hay : List Char) : List Nat :=
  (List.range (hay.length + 1)).filter (fun q => isWordBoundedAt ci name hay q)

/-! ### Presence resolver (`getPresentOrderedNames`) -/

/-- Boolean membership of a string in a list, used where the source
tests `indexOf(x) > -1` / `== -1`. -/
def hasStr (l : List String) (x : String) : Bool :=
  l.any (fun y => decide (y = x))

/-- A message as read by the resolver (`lastMes`): its text (the
`mes ?? message ?? text ?? ''` chain collapsed) and the `is_user`
flag. -/
structure Msg where
  text : List Char
  is_user : Bool
deriving DecidableEq, Repr

/-- A presence item `{name, count, firstIndex, masterIndex, forced}`. -/
structure PItem where
  name : String
  count : Nat
  firstIndex : Option Nat
  masterIndex : Nat
  forced : Bool
deriving DecidableEq, Repr

/-- Resolution of `USER_NAME`: first custom member when the custom member list is
non-empty, else the head of the master name list. -/
def getUserName (members masters : List String) : Option String :=
  if members.isEmpty then masters.head? else members.head?

/-- JS truthiness of the optional `USER_NAME` (undefined and the empty
string are falsy). -/
def optTruthy : Option String → Bool
  | none => false
  | some s => !s.isEmpty

/-- Model of `text.slice(a, b)` for `0 ≤ a ≤ b ≤ length`. -/
def sliceL (l : List Char) (a b : Nat) : List Char :=
  (l.take b).drop a

/-- The non-bracket spans with their substrings attached, as built at
the top of `getPresentOrderedNames`. -/
def spansOf (text : List Char) : List TSpan :=
  (getNonBracketSpans text).map (fun s => ⟨s.start, sliceL text s.start s.stop⟩)

/-- Model of `name.toLowerCase()` (character-wise ASCII lowering). -/
def toLowerStr (s : String) : String :=
  ⟨s.toList.map Char.toLower⟩

/-- The per-name counting loop: skip names whose lowercase form is in
the exclude list, keep those with positive count as items carrying
their master index. -/
def presenceItems (exclude : List String) (spans : List TSpan) (masters : List String) : List PItem :=
  masters.enum.filterMap (fun p =>
    if hasStr exclude (toLowerStr p.2) then none
    else
      let r := countOccurrencesOutsideBrackets p.2.toList spans
      if 0 < r.count then some ⟨p.2, r.count, r.firstIndex, p.1, false⟩ else none)

/-- Model of `items.find(it => it.name === u).forced = true`: mark the first item
with the given name as forced. -/
def markForcedFirst (u : String) : List PItem → List PItem
  | [] => []
  | it :: rest =>
    if it.name = u then { it with forced := true } :: rest
    else it :: markForcedFirst u rest

/-- The user-ensuring step for user messages: if no item carries
`USER_NAME`, synthesize `{count 1, firstIndex 0, masterIndex 0,
forced}`; else mark the existing one forced. -/
def ensurePhase (isUser : Bool) (user : Option String) (items : List PItem) : List PItem :=
  if isUser then
    match user with
    | some u =>
      if u.isEmpty then items
      else if items.any (fun it => decide (it.name = u)) then markForcedFirst u items
      else items ++ [⟨u, 1, some 0, 0, true⟩]
    | none => items
  else items

/-- The `firstIndex` inequality with `null` read as `Infinity`
(`ai !== bi` of the comparator). -/
def optIdxNE (a b : Option Nat) : Bool :=
  match a, b with
  | none, none => false
  | none, some _ => true
  | some _, none => true
  | some x, some y => decide (x ≠ y)

/-- The `firstIndex` strict order with `null` read as `Infinity`. -/
def optIdxLT (a b : Option Nat) : Bool :=
  match a, b with
  | none, _ => false
  | some _, none => true
  | some x, some y => decide (x < y)

/-- The sort comparator of the resolver, as "a sorts strictly before b":
descending count, then ascending firstIndex (null last), then ascending
master index. -/
def cmpLT (a b : PItem) : Bool :=
  if a.count ≠ b.count then decide (b.count < a.count)
  else if optIdxNE a.firstIndex b.firstIndex then optIdxLT a.firstIndex b.firstIndex
  else decide (a.masterIndex < b.masterIndex)

/-- Stable insertion into a sorted list: `x` goes before the first
element that does not sort strictly before it. -/
def insertItem (x : PItem) : List PItem → List PItem
  | [] => [x]
  | y :: ys => if cmpLT y x then y :: insertItem x ys else x :: y :: ys

/-- Stable sort by the comparator (`Array.prototype.sort` is stable and
the comparator is a consistent total preorder, so any stable sort gives
the array the source produces). -/
def sortItems : List PItem → List PItem
  | [] => []
  | x :: xs => insertItem x (sortItems xs)

/-- The demotion rule: on a non-user message with a truthy `USER_NAME`,
if the user's item is first and another exists, swap positions 0/1. -/
def demotePhase (isUser : Bool) (user : Option String) (items : List PItem) : List PItem :=
  if !isUser && optTruthy user then
    match user, items with
    | some u, a :: b :: rest => if a.name = u then b :: a :: rest else a :: b :: rest
    | _, _ => items
  else items

/-- Remove the first element satisfying `p`, returning it and the rest
(`findIndex` + `splice`). -/
def extractFirst (p : PItem → Bool) : List PItem → Option (PItem × List PItem)
  | [] => none
  | x :: xs =>
    if p x then some (x, xs)
    else (extractFirst p xs).map (fun r => (r.1, x :: r.2))

/-- The forcing rule: on a user message with a truthy `USER_NAME`, move
the user's item (if present) to the front. -/
def forcePhase (isUser : Bool) (user : Option String) (items : List PItem) : List PItem :=
  if isUser && optTruthy user then
    match user with
    | some u =>
      match extractFirst (fun it => decide (it.name = u)) items with
      | some r => r.1 :: r.2
      | none => items
    | none => items
  else items

/-- Model of `getPresentOrderedNames(lastMes, nameList)` with the chat settings
(`csettings.members`, `csettings.exclude`) passed explicitly: the
empty-user-message short circuit, then counting, the user-ensuring
step, the sort, the demotion rule and the forcing rule. -/
def getPresentOrderedNames (members exclude : List String) (msg : Msg) (masters : List String) : List String :=
  if msg.text.isEmpty && msg.is_user then
    match getUserName members masters with
    | some u => if u.isEmpty then [] else [u]
    | none => []
  else
    (forcePhase msg.is_user (getUserName members masters)
      (demotePhase msg.is_user (getUserName members masters)
        (sortItems
          (ensurePhase msg.is_user (getUserName members masters)
            (presenceItems exclude (spansOf msg.text) masters))))).map PItem.name

/-! ### Roster engine (`updateMembers`) -/

/-- The module-level roster state mutated by `updateMembers`. -/
structure RosterState where
  nameList : List String
  left : List String
  right : List String
  current : Option String
deriving DecidableEq, Repr

/-- The capacities read from the settings at call time
(`-1` = unbounded). -/
structure Caps where
  numLeft : Int
  numRight : Int
deriving DecidableEq, Repr

/-- The DOM side effects of a refresh, reduced to the names involved:
wrappers detached for removed names, wrappers created for added names,
and purgatory names evicted (detached) for lack of capacity. -/
structure Effects where
  detached : List String
  attached : List String
  evicted : List String
deriving DecidableEq, Repr

/-- Processing of one removed name: drop it from `nameList`; if it is in
`left` remove it there, else if in `right` remove it there, else set
`current = null` (the source's unconditional else branch). -/
def removeName (st : RosterState) (name : String) : RosterState :=
  let nl := st.nameList.erase name
  if hasStr st.left name then
    { st with nameList := nl, left := st.left.erase name }
  else if hasStr st.right name then
    { st with nameList := nl, right := st.right.erase name }
  else
    { st with nameList := nl, current := none }

/-- The shrink loop
`while (cap != -1 && side.length > cap) purgatory.push(side.pop())`,
returning the remaining side and the popped names most-recent-first.
Fuel `side.length` covers every terminating run of the source loop. -/
def shrinkLoop (cap : Int) : Nat → List String → List String × List String
  | 0, side => (side, [])
  | fuel + 1, side =>
    if cap ≠ -1 ∧ cap < (side.length : Int) then
      match side.getLast? with
      | none => (side, [])
      | some last =>
        let r := shrinkLoop cap fuel side.dropLast
        (r.1, last :: r.2)
    else (side, [])

/-- The side-selection step shared by the added/purgatory/backfill
loops: become `current` when unset; else join `left` when it has spare
capacity (or is unbounded) and is not larger than `right` unless `right`
is full; else join `right` when it has spare capacity (or is unbounded).
The flag reports whether the name was placed. -/
def placeAttempt (caps : Caps) (st : RosterState) (name : String) : RosterState × Bool :=
  match st.current with
  | none => ({ st with current := some name }, true)
  | some _ =>
    if ((st.left.length : Int) < caps.numLeft ∨ caps.numLeft = -1) ∧
       (st.left.length ≤ st.right.length ∨ caps.numRight ≤ (st.right.length : Int)) then
      ({ st with left := st.left ++ [name] }, true)
    else if (st.right.length : Int) < caps.numRight ∨ caps.numRight = -1 then
      ({ st with right := st.right ++ [name] }, true)
    else (st, false)

/-- The added-names loop: push each name onto `nameList`, then attempt
placement (a wrapper is created regardless of placement). -/
def addNames (caps : Caps) (st : RosterState) (added : List String) : RosterState :=
  added.foldl (fun s n => (placeAttempt caps { s with nameList := s.nameList ++ [n] } n).1) st

/-- The purgatory re-placement loop; names that cannot be placed are
evicted (collected for the effect report). -/
def purgatoryPass (caps : Caps) (st : RosterState) (purg : List String) : RosterState × List String :=
  purg.foldl
    (fun acc n =>
      let r := placeAttempt caps acc.1 n
      (r.1, if r.2 then acc.2 else acc.2 ++ [n]))
    (st, [])

/-- Model of `nameList.filter(it => left.indexOf(it)==-1 && right.indexOf(it)==-1
&& it != current)`. -/
def computeQueue (st : RosterState) : List String :=
  st.nameList.filter (fun n =>
    !hasStr st.left n && !hasStr st.right n && !(decide (st.current = some n)))

/-- A name is visually placed: on a side or the current speaker. -/
def placedIn (st : RosterState) (n : String) : Prop :=
  n ∈ st.left ∨ n ∈ st.right ∨ st.current = some n

/-- A side respects its capacity (`-1` = unbounded). -/
def sideOk (cap : Int) (side : List String) : Prop :=
  cap = -1 ∨ (side.length : Int) ≤ cap

/-- The capacity disjunct of the backfill `while` condition. -/
def backfillCond (caps : Caps) (st : RosterState) : Prop :=
  caps.numLeft = -1 ∨ caps.numRight = -1 ∨
  (st.left.length : Int) < caps.numLeft ∨ (st.right.length : Int) < caps.numRight ∨
  st.current = none

instance (caps : Caps) (st : RosterState) : Decidable (backfillCond caps st) := by
  unfold backfillCond; infer_instance

/-- The backfill loop, processing the already-reversed queue head-first
(the source pops from the back of the queue). -/
def backfillLoopRev (caps : Caps) : List String → RosterState → RosterState
  | [], st => st
  | n :: rest, st =>
    if backfillCond caps st then backfillLoopRev caps rest (placeAttempt caps st n).1
    else st

/-- The roster refresh `updateMembers` (its DOM work reduced to the
`Effects` report): diff against the desired names, process removals, the
capacity shrink, additions, purgatory, and the backfill loop. -/
def updateMembers (caps : Caps) (names : List String) (st : RosterState) : RosterState × Effects :=
  let removed := st.nameList.filter (fun n => !hasStr names n)
  let added := names.filter (fun n => !hasStr st.nameList n)
  let st1 := removed.foldl removeName st
  let lp := shrinkLoop caps.numLeft st1.left.length st1.left
  let rp := shrinkLoop caps.numRight st1.right.length st1.right
  let st2 := { st1 with left := lp.1, right := rp.1 }
  let st3 := addNames caps st2 added
  let pr := purgatoryPass caps st3 (lp.2 ++ rp.2)
  let st5 := backfillLoopRev caps (computeQueue pr.1).reverse pr.1
  (st5, ⟨removed, added, pr.2⟩)

/-! ### History-derived order (`getOrderFromText`) -/

/-- A chat message as read by `getOrderFromText`. -/
structure ChatMsg where
  mes : List Char
  is_user : Bool
  is_system : Bool
deriving DecidableEq, Repr

/-- First match of the case-sensitive word regex
(`regex.exec`, no flags). -/
def firstMatchCS (name hay : List Char) : Option (Nat × Nat) :=
  firstMatchFrom false name hay 0

/-- The index of a name's first case-sensitive word-regex match in a
text, `0` when there is none (used to state the ordering property of
`getOrderFromText`). -/
def csIdx (n : String) (hay : List Char) : Nat :=
  match firstMatchCS n.toList hay with
  | some pe => pe.1
  | none => 0

/-- Stable insertion by ascending match index (ties keep arrival
order, as the stable `Array.prototype.sort` does). -/
def insertByIdx (x : String × Nat) : List (String × Nat) → List (String × Nat)
  | [] => [x]
  | y :: ys => if x.2 < y.2 then x :: y :: ys else y :: insertByIdx x ys

/-- Stable sort of `(name, matchIndex)` pairs by ascending index. -/
def sortByIdx (l : List (String × Nat)) : List (String × Nat) :=
  l.foldl (fun acc x => insertByIdx x acc) []

/-- The per-message member matching: names of the remaining members that
match (case-sensitively) in the message text, with the index of the
first match. -/
def gotStep (members : List String) (mes : ChatMsg) : List (String × Nat) :=
  members.filterMap (fun m => (firstMatchCS m.toList mes.mes).map (fun pe => (m, pe.1)))

/-- Model of `list.filter((it, idx) => idx == list.indexOf(it))`: keep first
occurrences. -/
def dedupFirstAux (seen : List String) : List String → List String
  | [] => []
  | x :: xs =>
    if hasStr seen x then dedupFirstAux seen xs
    else x :: dedupFirstAux (x :: seen) xs

/-- Keep the first occurrence of each name. -/
def dedupFirst (l : List String) : List String :=
  dedupFirstAux [] l

/-- The message loop of `getOrderFromText`: per message, sort the
matched members by first-match index, append their (deduplicated) names
to the order, and splice the matched members out of the pool. -/
def getOrderFromTextLoop : List ChatMsg → List String → List String → List String
  | [], _, o => o
  | mes :: rest, members, o =>
    let mesmem := sortByIdx (gotStep members mes)
    let o2 := o ++ dedupFirst (mesmem.map (fun p => p.1))
    let members2 := mesmem.foldl (fun ms p => ms.erase p.1) members
    getOrderFromTextLoop rest members2 o2

/-- Model of `getOrderFromText(members)` over an explicit chat transcript:
non-system, non-user messages, most recent first. -/
def getOrderFromText (members : List String) (chatList : List ChatMsg) : List String :=
  getOrderFromTextLoop ((chatList.filter (fun m => !m.is_system && !m.is_user)).reverse) members []

/-! ### Debounce / restart guard -/

/-- The closure state of `debounceAsync`: the pending shared promise
(by id), the scheduled fire time, and a fresh-id counter. -/
structure DebCtx where
  nextId : Nat
  pending : Option Nat
  deadline : Option Nat
deriving DecidableEq, Repr

/-- One invocation of the debounced function at time `t`:
`clearTimeout`, create the shared promise when absent, re-arm the timer
to `t + window`, and return the shared promise. -/
def debCall (window t : Nat) (s : DebCtx) : DebCtx × Nat :=
  match s.pending with
  | some id => ({ s with deadline := some (t + window) }, id)
  | none => (⟨s.nextId + 1, some s.nextId, some (t + window)⟩, s.nextId)

/-- The timer firing: run the wrapped function, resolve the shared
promise with its result, and clear the shared promise. -/
def debFire (s : DebCtx) : DebCtx × Option Nat :=
  match s.pending with
  | some id => ({ s with pending := none, deadline := none }, some id)
  | none => (s, none)

/-- Run a sequence of invocation times (ascending) against the debounce
state, firing the timer whenever its deadline precedes the next call,
and firing any armed timer at the end.  Returns the final state, the
promise id handed to each caller, and the ids resolved by an actual
execution of the wrapped function. -/
def debRun (window : Nat) : List Nat → DebCtx → DebCtx × List Nat × List Nat
  | [], s =>
    match s.deadline with
    | some _ =>
      let f := debFire s
      (f.1, [], f.2.toList)
    | none => (s, [], [])
  | t :: rest, s =>
    match s.deadline with
    | some d =>
      if d ≤ t then
        let f := debFire s
        let c := debCall window t f.1
        let r := debRun window rest c.1
        (r.1, c.2 :: r.2.1, f.2.toList ++ r.2.2)
      else
        let c := debCall window t s
        let r := debRun window rest c.1
        (r.1, c.2 :: r.2.1, r.2.2)
    | none =>
      let c := debCall window t s
      let r := debRun window rest c.1
      (r.1, c.2 :: r.2.1, r.2.2)

/-- The tear-down / set-up steps of the restart sequence. -/
inductive RestartEff where
  | teardown
  | setup
deriving DecidableEq, Repr

/-- The body wrapped by `debounceAsync` in `restart`: when the
re-entrancy flag is up the call returns immediately with no effect;
otherwise it runs tear-down then set-up. -/
def restartBody (restarting : Bool) : Bool × List RestartEff :=
  if restarting then (true, [])
  else (false, [RestartEff.teardown, RestartEff.setup])

/-! ## Span scanner lemmas (towards C5) -/

theorem idxOfAux_bounds {c : Char} :
    ∀ (l : List Char) (i j : Nat), idxOfAux c l i = some j → i ≤ j ∧ j < i + l.length := by
  intro l
  induction l with
  | nil => intro i j h; simp [idxOfAux] at h
  | cons x xs ih =>
    intro i j h
    simp only [idxOfAux] at h
    simp only [List.length_cons]
    split at h
    · injection h with h2
      omega
    · have := ih (i + 1) j h
      omega

theorem indexOfFrom_bounds {text : List Char} {c : Char} {i j : Nat}
    (h : indexOfFrom text c i = some j) : i ≤ j ∧ j < text.length := by
  have hb := idxOfAux_bounds (text.drop i) i j h
  rw [List.length_drop] at hb
  omega

theorem orderedIn_weaken {hi : Nat} :
    ∀ {bs : List Span} {lo lo' : Nat}, lo ≤ lo' → OrderedIn lo' hi bs → OrderedIn lo hi bs := by
  intro bs
  cases bs with
  | nil => intro _ _ _ _; trivial
  | cons s rest =>
    intro lo lo' hle h
    obtain ⟨h1, h2, h3, h4⟩ := h
    exact ⟨by omega, h2, h3, h4⟩

theorem orderedIn_start_le {hi : Nat} :
    ∀ {bs : List Span} {lo : Nat}, OrderedIn lo hi bs → ∀ s ∈ bs, lo ≤ s.start := by
  intro bs
  induction bs with
  | nil => intro lo _ s hs; simp at hs
  | cons b rest ih =>
    intro lo h s hs
    obtain ⟨h1, h2, h3, h4⟩ := h
    rcases List.mem_cons.mp hs with rfl | hs
    · exact h1
    · have := ih h4 s hs
      omega

theorem orderedIn_le_stop {hi : Nat} :
    ∀ {bs : List Span} {lo : Nat}, OrderedIn lo hi bs → ∀ s ∈ bs, s.start ≤ s.stop := by
  intro bs
  induction bs with
  | nil => intro lo _ s hs; simp at hs
  | cons b rest ih =>
    intro lo h s hs
    obtain ⟨h1, h2, h3, h4⟩ := h
    rcases List.mem_cons.mp hs with rfl | hs
    · exact h2
    · exact ih h4 s hs

theorem orderedIn_pairwise {hi : Nat} :
    ∀ {bs : List Span} {lo : Nat}, OrderedIn lo hi bs →
      List.Pairwise (fun a b => a.stop ≤ b.start) bs := by
  intro bs
  induction bs with
  | nil => intro _ _; exact List.Pairwise.nil
  | cons b rest ih =>
    intro lo h
    obtain ⟨h1, h2, h3, h4⟩ := h
    exact List.Pairwise.cons (orderedIn_start_le h4) (ih h4)

theorem parseBracketSpansAux_ordered (text : List Char) :
    ∀ (fuel i : Nat), text.length ≤ i + fuel →
      OrderedIn i text.length (parseBracketSpansAux text i fuel) := by
  intro fuel
  induction fuel with
  | zero => intro i h; trivial
  | succ fuel ih =>
    intro i h
    rw [parseBracketSpansAux]
    split
    · next hi =>
      split
      · cases hj : indexOfFrom text (text.get ⟨i, hi⟩) (i + 1) with
        | none => exact ⟨Nat.le_refl i, Nat.le_of_lt hi, Nat.le_refl _, trivial⟩
        | some j =>
          have hb := indexOfFrom_bounds hj
          refine ⟨Nat.le_refl i, ?_, ?_, ih (j + 1) (by omega)⟩
          · show i ≤ j + 1
            omega
          · show j + 1 ≤ text.length
            omega
      · exact orderedIn_weaken (Nat.le_succ i) (ih (i + 1) (by omega))
    · trivial

theorem parseBracketSpans_ordered (text : List Char) :
    OrderedIn 0 text.length (parseBracketSpans text) :=
  parseBracketSpansAux_ordered text text.length 0 (by omega)

theorem spanContains_iff {s : Span} {k : Nat} :
    spanContains s k = true ↔ (s.start ≤ k ∧ k < s.stop) := by
  simp [spanContains]

theorem spanContains_false {s : Span} {k : Nat} (h : ¬ (s.start ≤ k ∧ k < s.stop)) :
    spanContains s k = false := by
  rw [Bool.eq_false_iff]
  intro hc
  exact h (spanContains_iff.mp hc)

theorem countContaining_nil {k : Nat} : countContaining [] k = 0 := rfl

theorem countContaining_cons {s : Span} {spans : List Span} {k : Nat} :
    countContaining (s :: spans) k =
      countContaining spans k + (if spanContains s k then 1 else 0) :=
  List.countP_cons _ _ _

theorem complementLoop_start_le (len : Nat) :
    ∀ (bs : List Span) (cursor : Nat), ∀ s ∈ complementLoop len cursor bs, cursor ≤ s.start := by
  intro bs
  induction bs with
  | nil =>
    intro cursor s hs
    simp only [complementLoop] at hs
    split at hs
    · rcases List.mem_singleton.mp hs with rfl
      exact Nat.le_refl _
    · simp at hs
  | cons b rest ih =>
    intro cursor s hs
    simp only [complementLoop] at hs
    split at hs
    · rcases List.mem_cons.mp hs with rfl | hs
      · exact Nat.le_refl _
      · exact le_trans (Nat.le_max_left cursor b.stop) (ih (max cursor b.stop) s hs)
    · exact le_trans (Nat.le_max_left cursor b.stop) (ih (max cursor b.stop) s hs)

theorem complementLoop_ordered (len : Nat) :
    ∀ (bs : List Span) (cursor : Nat), OrderedIn cursor len bs →
      OrderedIn cursor len (complementLoop len cursor bs) := by
  intro bs
  induction bs with
  | nil =>
    intro cursor _
    simp only [complementLoop]
    split
    · next hlt => exact ⟨Nat.le_refl _, Nat.le_of_lt hlt, Nat.le_refl _, trivial⟩
    · trivial
  | cons b rest ih =>
    intro cursor h
    obtain ⟨h1, h2, h3, h4⟩ := h
    have hmax : max cursor b.stop = b.stop := Nat.max_eq_right (by omega)
    simp only [complementLoop, hmax]
    split
    · next hlt =>
      refine ⟨Nat.le_refl _, ?_, ?_, ?_⟩
      · show cursor ≤ b.start
        omega
      · show b.start ≤ len
        omega
      · show OrderedIn b.start len (complementLoop len b.stop rest)
        exact orderedIn_weaken (by omega) (ih b.stop h4)
    · exact orderedIn_weaken (by omega) (ih b.stop h4)

theorem countContaining_zero {spans : List Span} {k : Nat}
    (h : ∀ s ∈ spans, ¬ (s.start ≤ k ∧ k < s.stop)) : countContaining spans k = 0 := by
  apply List.countP_eq_zero.mpr
  intro s hs
  simp only [spanContains, Bool.and_eq_true, decide_eq_true_eq]
  intro hc
  exact h s hs ⟨hc.1, hc.2⟩

theorem complement_coverage (len : Nat) :
    ∀ (bs : List Span) (cursor : Nat), OrderedIn cursor len bs →
      ∀ k, cursor ≤ k → k < len →
        countContaining (complementLoop len cursor bs) k + countContaining bs k = 1 := by
  intro bs
  induction bs with
  | nil =>
    intro cursor _ k hck hkl
    simp only [complementLoop]
    rw [if_pos (show cursor < len by omega)]
    have hc : spanContains ⟨cursor, len⟩ k = true := spanContains_iff.mpr ⟨hck, hkl⟩
    rw [countContaining_cons, hc]
    simp [countContaining]
  | cons b rest ih =>
    intro cursor h k hck hkl
    obtain ⟨h1, h2, h3, h4⟩ := h
    have hmax : max cursor b.stop = b.stop := Nat.max_eq_right (by omega)
    simp only [complementLoop, hmax]
    rcases Nat.lt_or_ge k b.stop with hks | hks
    · -- k lies before the end of b: neither the rest of the bracket
      -- spans nor the complement of the rest can contain it
      have hrest0 : countContaining rest k = 0 :=
        countContaining_zero (fun s hs => by
          have := orderedIn_start_le h4 s hs; omega)
      have hcomp0 : countContaining (complementLoop len b.stop rest) k = 0 :=
        countContaining_zero (fun s hs => by
          have := complementLoop_start_le len rest b.stop s hs; omega)
      rcases Nat.lt_or_ge k b.start with hkb | hkb
      · -- covered by the head complement span only
        rw [if_pos (by omega)]
        have hc1 : spanContains ⟨cursor, b.start⟩ k = true := spanContains_iff.mpr ⟨hck, hkb⟩
        have hb0 : spanContains b k = false :=
          spanContains_false (show ¬ (b.start ≤ k ∧ k < b.stop) by omega)
        rw [countContaining_cons, countContaining_cons, hc1, hb0, hrest0, hcomp0]
        simp
      · -- covered by b only
        have hb1 : spanContains b k = true := spanContains_iff.mpr ⟨hkb, hks⟩
        rw [countContaining_cons, hb1, hrest0]
        split
        · have hc0 : spanContains ⟨cursor, b.start⟩ k = false :=
            spanContains_false (show ¬ (cursor ≤ k ∧ k < b.start) by omega)
          rw [countContaining_cons, hc0, hcomp0]
          simp
        · rw [hcomp0]
          simp
    · -- k lies past b: recurse
      have hihk := ih b.stop h4 k hks hkl
      have hb0 : spanContains b k = false :=
        spanContains_false (show ¬ (b.start ≤ k ∧ k < b.stop) by omega)
      rw [countContaining_cons, hb0]
      split
      · have hc0 : spanContains ⟨cursor, b.start⟩ k = false :=
          spanContains_false (show ¬ (cursor ≤ k ∧ k < b.start) by omega)
        rw [countContaining_cons, hc0]
        simpa using hihk
      · simpa using hihk

/-- C5: for every text, the non-bracket spans are pairwise disjoint and
ascending, and together with the bracket spans they cover every index of
`[0, len)` exactly once. -/
theorem c5_span_partition (text : List Char) :
    (List.Pairwise (fun a b => a.stop ≤ b.start) (getNonBracketSpans text) ∧
      ∀ s ∈ getNonBracketSpans text, s.start ≤ s.stop) ∧
    ∀ k, k < text.length →
      countContaining (getNonBracketSpans text ++ parseBracketSpans text) k = 1 := by
  have hord := parseBracketSpans_ordered text
  unfold getNonBracketSpans
  split
  · next hemp =>
    refine ⟨⟨List.pairwise_singleton _ _, ?_⟩, ?_⟩
    · intro s hs
      rcases List.mem_singleton.mp hs with rfl
      simp
    · intro k hk
      rw [List.isEmpty_iff.mp hemp]
      simp [countContaining, List.countP_cons, spanContains, hk]
  · next hemp =>
    have hcord := complementLoop_ordered text.length (parseBracketSpans text) 0 hord
    refine ⟨⟨orderedIn_pairwise hcord, orderedIn_le_stop hcord⟩, ?_⟩
    intro k hk
    rw [countContaining, List.countP_append]
    exact complement_coverage text.length (parseBracketSpans text) 0 hord k (Nat.zero_le k) hk

/-- Witness for C5 at a concrete text and index. -/
theorem c5_span_partition_witness :
    (0 : Nat) < (['a', dquoteChar, 'b', dquoteChar, 'c'] : List Char).length ∧
    countContaining
      (getNonBracketSpans ['a', dquoteChar, 'b', dquoteChar, 'c'] ++
        parseBracketSpans ['a', dquoteChar, 'b', dquoteChar, 'c']) 0 = 1 :=
  ⟨by decide, (c5_span_partition ['a', dquoteChar, 'b', dquoteChar, 'c']).2 0 (by decide)⟩

/-! ## General helpers -/

theorem hasStr_iff {l : List String} {x : String} : hasStr l x = true ↔ x ∈ l := by
  simp only [hasStr, List.any_eq_true, decide_eq_true_eq]
  constructor
  · rintro ⟨y, hy, rfl⟩
    exact hy
  · intro h
    exact ⟨x, h, rfl⟩

/-! ## C1: roster capacity example -/

/-- C1, counterexample: with `numLeft = 1`, `numRight = 1`, refreshing
the empty roster with desired names A, B, C does **not** give
`left = [A]`, `right = [B]` with C unplaced: the first added name
becomes `current`, so the code gives `current = A`, `left = [B]`,
`right = [C]`. -/
theorem c1_capacity_counterexample :
    (updateMembers ⟨1, 1⟩ ["A", "B", "C"] ⟨[], [], [], none⟩).1 =
      ⟨["A", "B", "C"], ["B"], ["C"], some "A"⟩ ∧
    ¬ ((updateMembers ⟨1, 1⟩ ["A", "B", "C"] ⟨[], [], [], none⟩).1.left = ["A"] ∧
       (updateMembers ⟨1, 1⟩ ["A", "B", "C"] ⟨[], [], [], none⟩).1.right = ["B"] ∧
       "C" ∉ (updateMembers ⟨1, 1⟩ ["A", "B", "C"] ⟨[], [], [], none⟩).1.left ∧
       "C" ∉ (updateMembers ⟨1, 1⟩ ["A", "B", "C"] ⟨[], [], [], none⟩).1.right) := by
  constructor
  · decide
  · decide

/-- C1 (amended): with `numLeft = 1`, `numRight = 1`, refreshing the
empty roster with desired names A, B, C (in that order) makes the first
added name the `current` speaker and distributes the rest: `current = A`,
`left = [B]`, `right = [C]`, `nameList = [A, B, C]`; every name is
placed, none waits for capacity. -/
theorem c1_capacity_amended :
    updateMembers ⟨1, 1⟩ ["A", "B", "C"] ⟨[], [], [], none⟩ =
      (⟨["A", "B", "C"], ["B"], ["C"], some "A"⟩, ⟨[], ["A", "B", "C"], []⟩) := by
  decide

/-! ## C2: bracket exclusion example -/

/-- C2, counterexample: in `'(Alice) Bob Alice'` the parenthesised
Alice is **not** excluded (only double quotes and asterisks are bracket
tokens), so Alice counts 2, not 1; and the resolver returns
`[Bob, Alice]` (the demotion rule swaps the user name away from slot 0),
not the by-earliest-index order `[Alice, Bob]`. -/
theorem c2_bracket_counterexample :
    (countOccurrencesOutsideBrackets "Alice".toList
        (spansOf "(Alice) Bob Alice".toList)).count = 2 ∧
    getPresentOrderedNames [] [] ⟨"(Alice) Bob Alice".toList, false⟩
        ["Alice", "Bob", "Carol"] = ["Bob", "Alice"] ∧
    ¬ ((countOccurrencesOutsideBrackets "Alice".toList
          (spansOf "(Alice) Bob Alice".toList)).count = 1 ∧
       getPresentOrderedNames [] [] ⟨"(Alice) Bob Alice".toList, false⟩
          ["Alice", "Bob", "Carol"] = ["Alice", "Bob"]) := by
  refine ⟨by decide, by decide, ?_⟩
  decide

/-- C2 (amended): resolving the non-user message `'(Alice) Bob Alice'`
against `[Alice, Bob, Carol]` counts 2 unbracketed occurrences of Alice
(parentheses are not bracket delimiters) with earliest match index 0,
and 1 of Bob (match index 7); after the count-descending sort the
demotion rule swaps the user name Alice out of position 0, so the
result is `[Bob, Alice]`. -/
theorem c2_bracket_amended :
    countOccurrencesOutsideBrackets "Alice".toList
        (spansOf "(Alice) Bob Alice".toList) = ⟨2, some 0⟩ ∧
    countOccurrencesOutsideBrackets "Bob".toList
        (spansOf "(Alice) Bob Alice".toList) = ⟨1, some 7⟩ ∧
    getPresentOrderedNames [] [] ⟨"(Alice) Bob Alice".toList, false⟩
        ["Alice", "Bob", "Carol"] = ["Bob", "Alice"] := by
  refine ⟨by decide, by decide, by decide⟩

/-! ## C3: removal frame effect -/

/-- C3, counterexample: removing a name that sits in neither `left` nor
`right` nor `current` clears `current` anyway.  Here C is tracked but
unplaced (capacities 0/0); removing it sets `current` from `some A` to
`none`, and in the full refresh the backfill then promotes B, so
`current` ends as `some B`, not `some A`. -/
theorem c3_remove_counterexample :
    removeName ⟨["A", "B", "C"], [], [], some "A"⟩ "C" =
      ⟨["A", "B"], [], [], none⟩ ∧
    (updateMembers ⟨0, 0⟩ ["A", "B"] ⟨["A", "B", "C"], [], [], some "A"⟩).1.current =
      some "B" ∧
    ¬ ((removeName ⟨["A", "B", "C"], [], [], some "A"⟩ "C").current = some "A") := by
  refine ⟨by decide, by decide, by decide⟩

/-- C3 (amended): processing a removed name erases it from `nameList`
and: if it is in `left`, only `left` changes besides `nameList`; else if
it is in `right`, only `right` changes; otherwise `current` is set to
`none` unconditionally — even when the removed name was not `current` —
while `left` and `right` are untouched. -/
theorem c3_remove_frame (st : RosterState) (name : String) :
    (name ∈ st.left →
      removeName st name =
        { st with nameList := st.nameList.erase name, left := st.left.erase name }) ∧
    (name ∉ st.left → name ∈ st.right →
      removeName st name =
        { st with nameList := st.nameList.erase name, right := st.right.erase name }) ∧
    (name ∉ st.left → name ∉ st.right →
      removeName st name =
        { st with nameList := st.nameList.erase name, current := none }) := by
  refine ⟨?_, ?_, ?_⟩
  · intro h
    rw [removeName, if_pos (hasStr_iff.mpr h)]
  · intro h1 h2
    rw [removeName, if_neg (fun hc => h1 (hasStr_iff.mp hc)), if_pos (hasStr_iff.mpr h2)]
  · intro h1 h2
    rw [removeName, if_neg (fun hc => h1 (hasStr_iff.mp hc)),
      if_neg (fun hc => h2 (hasStr_iff.mp hc))]

/-- Witness for C3 (amended) at a concrete state: removing B, which is
tracked but neither placed nor current, clears `current`. -/
theorem c3_remove_frame_witness :
    "B" ∉ (["A"] : List String) ∧ "B" ∉ ([] : List String) ∧
    removeName ⟨["A", "B"], ["A"], [], some "A"⟩ "B" = ⟨["A"], ["A"], [], none⟩ :=
  ⟨by decide, by decide,
    (c3_remove_frame ⟨["A", "B"], ["A"], [], some "A"⟩ "B").2.2 (by decide) (by decide)⟩

/-! ## Word-regex lemmas (towards C6) -/

theorem matchesFrom_length {ci : Bool} :
    ∀ {name l : List Char}, matchesFrom ci name l = true → name.length ≤ l.length := by
  intro name
  induction name with
  | nil => intro l _; simp
  | cons c cs ih =>
    intro l h
    cases l with
    | nil => simp [matchesFrom] at h
    | cons x xs =>
      simp only [matchesFrom, Bool.and_eq_true] at h
      simp only [List.length_cons]
      exact Nat.succ_le_succ (ih h.2)

theorem boundaryEnd_spec {hay : List Char} {e r : Nat} (h : boundaryEnd hay e = some r) :
    hay.length ≤ e ∨ ∃ c, hay.get? e = some c ∧ isWordChar c = false := by
  unfold boundaryEnd at h
  split at h
  · next hg => exact Or.inl (List.get?_eq_none.mp hg)
  · next c hg =>
    split at h
    · exact Option.noConfusion h
    · next hw => exact Or.inr ⟨c, hg, Bool.eq_false_iff.mpr hw⟩

theorem altMatch_wordBounded {ci : Bool} {name hay : List Char} {s e : Nat}
    (hm : altMatch ci name hay s = some e) (hs : s ≤ hay.length)
    (hpre : s = 0 ∨ ∃ c, hay.get? (s - 1) = some c ∧ isWordChar c = false) :
    isWordBoundedAt ci name hay s = true := by
  unfold altMatch at hm
  split at hm
  · next hmat =>
    have hlen : name.length ≤ hay.length - s := by
      have := matchesFrom_length hmat
      rwa [List.length_drop] at this
    unfold isWordBoundedAt
    rw [hmat]
    simp only [Bool.true_and, Bool.and_eq_true]
    constructor
    · rcases hpre with rfl | ⟨c, hc, hw⟩
      · simp
      · simp only [hc, hw, Bool.not_false, Bool.or_true]
    · rcases boundaryEnd_spec hm with hnone | ⟨c, hc, hw⟩
      · have hg : hay.get? (s + name.length) = none := List.get?_eq_none.mpr hnone
        simp only [hg, decide_eq_true_eq]
        omega
      · simp only [hc, hw, Bool.not_false]
  · exact Option.noConfusion hm

theorem attemptAt_wordBounded {ci : Bool} {name hay : List Char} {p e : Nat}
    (h : attemptAt ci name hay p = some e) :
    ∃ q, (q = p ∨ q = p + 1) ∧ isWordBoundedAt ci name hay q = true := by
  unfold attemptAt at h
  split at h
  · next hp0 =>
    split at h
    · next e2 halt =>
      exact ⟨0, Or.inl hp0.symm, altMatch_wordBounded halt (Nat.zero_le _) (Or.inl rfl)⟩
    · split at h
      · next c hg =>
        split at h
        · exact Option.noConfusion h
        · next hw =>
          have hlt : 0 < hay.length := by
            rcases List.get?_eq_some.mp hg with ⟨hl, _⟩
            exact hl
          refine ⟨1, Or.inr (by omega), ?_⟩
          exact altMatch_wordBounded h hlt (Or.inr ⟨c, hg, Bool.eq_false_iff.mpr hw⟩)
      · exact Option.noConfusion h
  · split at h
    · next c hg =>
      split at h
      · exact Option.noConfusion h
      · next hw =>
        have hlt : p < hay.length := by
          rcases List.get?_eq_some.mp hg with ⟨hl, _⟩
          exact hl
        refine ⟨p + 1, Or.inr rfl, ?_⟩
        refine altMatch_wordBounded h hlt (Or.inr ⟨c, ?_, Bool.eq_false_iff.mpr hw⟩)
        simpa using hg
    · exact Option.noConfusion h

theorem scanFrom_attempt {ci : Bool} {name hay : List Char} :
    ∀ {fuel p q e : Nat}, scanFrom ci name hay fuel p = some (q, e) →
      attemptAt ci name hay q = some e := by
  intro fuel
  induction fuel with
  | zero => intro p q e h; simp [scanFrom] at h
  | succ fuel ih =>
    intro p q e h
    simp only [scanFrom] at h
    split at h
    · rename_i e2 ha
      injection h with h2
      injection h2 with hpq he
      subst hpq
      exact he ▸ ha
    · split at h
      · exact ih h
      · exact Option.noConfusion h

theorem allMatchesAux_attempt {ci : Bool} {name hay : List Char} :
    ∀ {fuel start : Nat} {pe : Nat × Nat}, pe ∈ allMatchesAux ci name hay fuel start →
      attemptAt ci name hay pe.1 = some pe.2 := by
  intro fuel
  induction fuel with
  | zero => intro start pe h; simp [allMatchesAux] at h
  | succ fuel ih =>
    intro start pe h
    simp only [allMatchesAux] at h
    split at h
    · simp at h
    · next pe2 hscan =>
      rcases List.mem_cons.mp h with rfl | h
      · exact scanFrom_attempt hscan
      · exact ih h

theorem wordMatches_wordBounded {ci : Bool} {name hay : List Char} {pe : Nat × Nat}
    (h : pe ∈ wordMatches ci name hay) :
    ∃ q, (q = pe.1 ∨ q = pe.1 + 1) ∧ isWordBoundedAt ci name hay q = true :=
  attemptAt_wordBounded (allMatchesAux_attempt h)

theorem minAcc_append (fi : Option Nat) (l1 l2 : List Nat) :
    minAcc fi (l1 ++ l2) = minAcc (minAcc fi l1) l2 := by
  simp [minAcc, List.foldl_append]

theorem stepFold :
    ∀ (l : List Nat) (acc : CountResult),
      l.foldl (fun a m => (⟨a.count + 1, updMin a.firstIndex m⟩ : CountResult)) acc =
        ⟨acc.count + l.length, minAcc acc.firstIndex l⟩ := by
  intro l
  induction l with
  | nil => intro acc; simp [minAcc]
  | cons x xs ih =>
    intro acc
    simp only [List.foldl_cons]
    rw [ih]
    simp only [minAcc, List.foldl_cons, List.length_cons, CountResult.mk.injEq]
    exact ⟨by omega, trivial⟩

theorem countOcc_fold (name : List Char) :
    ∀ (spans : List TSpan) (acc : CountResult),
      spans.foldl
        (fun acc span =>
          if span.text.isEmpty then acc
          else
            (wordMatches true name span.text).foldl
              (fun a m => ⟨a.count + 1, updMin a.firstIndex (span.start + m.1)⟩) acc)
        acc =
      ⟨acc.count + (absMatchList name spans).length,
        minAcc acc.firstIndex (absMatchList name spans)⟩ := by
  intro spans
  induction spans with
  | nil => intro acc; simp [absMatchList, minAcc]
  | cons s rest ih =>
    intro acc
    have habs : absMatchList name (s :: rest) =
        (if s.text.isEmpty then []
          else (wordMatches true name s.text).map (fun m => s.start + m.1)) ++
          absMatchList name rest := by
      simp [absMatchList]
    simp only [List.foldl_cons]
    rw [habs]
    split
    · next hemp =>
      rw [ih acc]
      simp [hemp]
    · next hemp =>
      have hinner :
          (wordMatches true name s.text).foldl
            (fun a m => (⟨a.count + 1, updMin a.firstIndex (s.start + m.1)⟩ : CountResult)) acc =
          ((wordMatches true name s.text).map (fun m => s.start + m.1)).foldl
            (fun a m => (⟨a.count + 1, updMin a.firstIndex m⟩ : CountResult)) acc := by
        rw [List.foldl_map]
      rw [hinner, stepFold, ih, minAcc_append, List.length_append]
      simp only [minAcc, CountResult.mk.injEq]
      exact ⟨by omega, trivial⟩

/-- The counter as a whole: its count is the number of word-regex
matches summed over the spans, and its `firstIndex` is the minimum of
all absolute match indices. -/
theorem countOcc_eq (name : List Char) (spans : List TSpan) :
    countOccurrencesOutsideBrackets name spans =
      ⟨(absMatchList name spans).length, minAcc none (absMatchList name spans)⟩ := by
  unfold countOccurrencesOutsideBrackets
  rw [countOcc_fold]
  simp

/-! ## C6: the counter versus word-bounded occurrences -/

/-- C6, counterexample: on the single plain span `'Bob Bob Bob'` there
are three word-bounded occurrences of Bob (positions 0, 4, 8), but the
counter reports 2: each regex match consumes the trailing delimiter, so
the scan resumes past the space that should precede the next
occurrence. -/
theorem c6_count_counterexample :
    (countOccurrencesOutsideBrackets "Bob".toList [⟨0, "Bob Bob Bob".toList⟩]).count = 2 ∧
    wordBoundedPositions true "Bob".toList "Bob Bob Bob".toList = [0, 4, 8] ∧
    ¬ ((countOccurrencesOutsideBrackets "Bob".toList [⟨0, "Bob Bob Bob".toList⟩]).count =
        (wordBoundedPositions true "Bob".toList "Bob Bob Bob".toList).length) := by
  refine ⟨by decide, by decide, by decide⟩

/-- C6 (amended): `countOccurrences` returns the number of
non-overlapping left-to-right word-regex matches summed over the plain
spans — every such match sits at a word-bounded occurrence of the name
(at the match index or one past it, since the match may consume a
leading delimiter), but adjacent word-bounded occurrences separated by
a single non-word character can be missed because a match consumes the
trailing delimiter — and `firstIndex` is the smallest
`span.start + matchIndex` over all matches, or `null` when there are
none. -/
theorem c6_count_amended (name : List Char) (spans : List TSpan) :
    countOccurrencesOutsideBrackets name spans =
      ⟨(absMatchList name spans).length, minAcc none (absMatchList name spans)⟩ ∧
    ∀ s ∈ spans, ∀ pe ∈ wordMatches true name s.text,
      ∃ q, (q = pe.1 ∨ q = pe.1 + 1) ∧ isWordBoundedAt true name s.text q = true := by
  refine ⟨countOcc_eq name spans, ?_⟩
  intro s _ pe hpe
  exact wordMatches_wordBounded hpe

/-- Witness for C6 (amended), discharging the membership hypotheses at
a concrete span and match. -/
theorem c6_count_amended_witness :
    (⟨0, "Bob Bob".toList⟩ : TSpan) ∈ [(⟨0, "Bob Bob".toList⟩ : TSpan)] ∧
    (0, 4) ∈ wordMatches true "Bob".toList "Bob Bob".toList ∧
    ∃ q, (q = (0, 4).1 ∨ q = (0, 4).1 + 1) ∧
      isWordBoundedAt true "Bob".toList "Bob Bob".toList q = true :=
  ⟨by decide, by decide,
    (c6_count_amended "Bob".toList [⟨0, "Bob Bob".toList⟩]).2
      ⟨0, "Bob Bob".toList⟩ (by decide) (0, 4) (by decide)⟩

/-! ## Resolver lemmas (towards C7 and C10) -/

theorem insertItem_perm (x : PItem) : ∀ l, List.Perm (insertItem x l) (x :: l) := by
  intro l
  induction l with
  | nil => exact List.Perm.refl _
  | cons y ys ih =>
    simp only [insertItem]
    split
    · exact (ih.cons y).trans (List.Perm.swap x y ys)
    · exact List.Perm.refl _

theorem sortItems_perm : ∀ l, List.Perm (sortItems l) l := by
  intro l
  induction l with
  | nil => exact List.Perm.refl _
  | cons x xs ih => exact (insertItem_perm x (sortItems xs)).trans (ih.cons x)

theorem markForcedFirst_names (u : String) :
    ∀ (items : List PItem), (markForcedFirst u items).map PItem.name = items.map PItem.name := by
  intro items
  induction items with
  | nil => rfl
  | cons it rest ih =>
    simp only [markForcedFirst]
    split
    · simp
    · simp only [List.map_cons, ih]

theorem ensurePhase_names (isUser : Bool) (user : Option String) (items : List PItem) :
    (ensurePhase isUser user items).map PItem.name = items.map PItem.name ∨
    (∃ u, user = some u ∧
      (ensurePhase isUser user items).map PItem.name = items.map PItem.name ++ [u] ∧
      u ∉ items.map PItem.name) := by
  unfold ensurePhase
  split
  · split
    · next u =>
      split
      · exact Or.inl rfl
      · split
        · exact Or.inl (markForcedFirst_names u items)
        · next hany =>
          refine Or.inr ⟨u, rfl, by simp, ?_⟩
          intro hmem
          rcases List.mem_map.mp hmem with ⟨it, hit, hname⟩
          have : items.any (fun it => decide (it.name = u)) = true :=
            List.any_eq_true.mpr ⟨it, hit, by simp [hname]⟩
          exact hany this
    · exact Or.inl rfl
  · exact Or.inl rfl

theorem demotePhase_perm (isUser : Bool) (user : Option String) (items : List PItem) :
    List.Perm (demotePhase isUser user items) items := by
  unfold demotePhase
  split
  · split
    · split
      · exact List.Perm.swap _ _ _
      · exact List.Perm.refl _
    · exact List.Perm.refl _
  · exact List.Perm.refl _

theorem extractFirst_perm {p : PItem → Bool} :
    ∀ {items : List PItem} {it : PItem} {rest : List PItem},
      extractFirst p items = some (it, rest) → List.Perm items (it :: rest) := by
  intro items
  induction items with
  | nil => intro it rest h; simp [extractFirst] at h
  | cons x xs ih =>
    intro it rest h
    simp only [extractFirst] at h
    split at h
    · injection h with h2
      injection h2 with ha hb
      subst ha
      subst hb
      exact List.Perm.refl _
    · cases hx : extractFirst p xs with
      | none => rw [hx] at h; simp at h
      | some r =>
        rw [hx] at h
        obtain ⟨it2, rest2⟩ := r
        simp only [Option.map, Option.some.injEq, Prod.mk.injEq] at h
        obtain ⟨ha, hb⟩ := h
        subst ha
        subst hb
        exact ((ih hx).cons x).trans (List.Perm.swap _ x rest2)

theorem forcePhase_perm (isUser : Bool) (user : Option String) (items : List PItem) :
    List.Perm (forcePhase isUser user items) items := by
  unfold forcePhase
  split
  · split
    · split
      · next r hx => exact (extractFirst_perm hx).symm
      · exact List.Perm.refl _
    · exact List.Perm.refl _
  · exact List.Perm.refl _

theorem presenceItems_names_sublist (exclude : List String) (spans : List TSpan)
    (masters : List String) :
    List.Sublist ((presenceItems exclude spans masters).map PItem.name) masters := by
  unfold presenceItems
  have key : ∀ l : List (Nat × String),
      List.Sublist ((l.filterMap (fun p =>
        if hasStr exclude (toLowerStr p.2) then none
        else
          if 0 < (countOccurrencesOutsideBrackets p.2.toList spans).count then
            some ⟨p.2, (countOccurrencesOutsideBrackets p.2.toList spans).count,
              (countOccurrencesOutsideBrackets p.2.toList spans).firstIndex, p.1, false⟩
          else none)).map PItem.name) (l.map Prod.snd) := by
    intro l
    induction l with
    | nil => simp
    | cons x xs ih =>
      simp only [List.filterMap_cons]
      split
      · exact ih.cons x.2
      · next b hb =>
        have hbname : b.name = x.2 := by
          split at hb
          · exact Option.noConfusion hb
          · split at hb
            · injection hb with h2
              rw [← h2]
            · exact Option.noConfusion hb
        simp only [List.map_cons, hbname]
        exact ih.cons₂ x.2
  have := key masters.enum
  rwa [List.enum_map_snd] at this

theorem ensurePhase_not_user (user : Option String) (items : List PItem) :
    ensurePhase false user items = items := rfl

theorem forcePhase_not_user (user : Option String) (items : List PItem) :
    forcePhase false user items = items := rfl

/-! ## C7: demotion of the user name -/

/-- C7: on a non-user message with a defined (truthy) `USER_NAME` and a
duplicate-free master list: if the user's item heads the sorted items
and at least one other item exists, the resolver swaps positions 0 and 1
(the user lands at exactly position 1, never further back); if the
user's item is not at position 0 the order is returned unchanged; and
with at least two items the user's name never occupies position 0 of the
result. -/
theorem c7_user_demotion (members exclude : List String) (msg : Msg) (masters : List String)
    (u : String) (hUser : msg.is_user = false)
    (hu : getUserName members masters = some u) (hne : u.isEmpty = false)
    (hnd : masters.Nodup) :
    (∀ a b rest,
      sortItems (presenceItems exclude (spansOf msg.text) masters) = a :: b :: rest →
      a.name = u →
      getPresentOrderedNames members exclude msg masters =
        b.name :: a.name :: rest.map PItem.name) ∧
    ((sortItems (presenceItems exclude (spansOf msg.text) masters)).head?.map PItem.name
        ≠ some u →
      getPresentOrderedNames members exclude msg masters =
        (sortItems (presenceItems exclude (spansOf msg.text) masters)).map PItem.name) ∧
    (2 ≤ (sortItems (presenceItems exclude (spansOf msg.text) masters)).length →
      (getPresentOrderedNames members exclude msg masters).get? 0 ≠ some u) := by
  have htr : optTruthy (getUserName members masters) = true := by
    rw [hu]
    simp [optTruthy, hne]
  have hout : getPresentOrderedNames members exclude msg masters =
      (demotePhase msg.is_user (getUserName members masters)
        (sortItems (presenceItems exclude (spansOf msg.text) masters))).map PItem.name := by
    unfold getPresentOrderedNames
    rw [hUser]
    simp only [Bool.and_false, Bool.false_eq_true, if_false, ensurePhase_not_user,
      forcePhase_not_user]
  have hdem2 : ∀ (a b : PItem) (rest : List PItem),
      demotePhase msg.is_user (getUserName members masters) (a :: b :: rest) =
        if a.name = u then b :: a :: rest else a :: b :: rest := by
    intro a b rest
    unfold demotePhase
    rw [hUser, hu]
    simp only [Bool.not_false, Bool.true_and]
    rw [if_pos (show optTruthy (some u) = true by rw [← hu]; exact htr)]
  have hdem0 : demotePhase msg.is_user (getUserName members masters) [] = [] := by
    unfold demotePhase
    rw [hUser, hu]
    simp only [Bool.not_false, Bool.true_and]
    rw [if_pos (show optTruthy (some u) = true by rw [← hu]; exact htr)]
  have hdem1 : ∀ a : PItem,
      demotePhase msg.is_user (getUserName members masters) [a] = [a] := by
    intro a
    unfold demotePhase
    rw [hUser, hu]
    simp only [Bool.not_false, Bool.true_and]
    rw [if_pos (show optTruthy (some u) = true by rw [← hu]; exact htr)]
  have hnodup : ((sortItems (presenceItems exclude (spansOf msg.text) masters)).map
      PItem.name).Nodup := by
    have hsub := presenceItems_names_sublist exclude (spansOf msg.text) masters
    have h0 := hsub.nodup hnd
    exact (List.Perm.nodup_iff
      ((sortItems_perm (presenceItems exclude (spansOf msg.text) masters)).map PItem.name)).mpr h0
  refine ⟨?_, ?_, ?_⟩
  · intro a b rest hsort hname
    rw [hout, hsort, hdem2, if_pos hname]
    simp
  · intro hhead
    rw [hout]
    cases hsort : sortItems (presenceItems exclude (spansOf msg.text) masters) with
    | nil => rw [hdem0]
    | cons a tail =>
      cases tail with
      | nil => rw [hdem1]
      | cons b rest =>
        rw [hsort] at hhead
        simp only [List.head?_cons] at hhead
        rw [hdem2, if_neg (fun hc => hhead (by simp [hc]))]
  · intro hlen2
    rw [hout]
    cases hsort : sortItems (presenceItems exclude (spansOf msg.text) masters) with
    | nil => rw [hsort] at hlen2; simp at hlen2
    | cons a tail =>
      cases tail with
      | nil => rw [hsort] at hlen2; simp at hlen2
      | cons b rest =>
        rw [hdem2]
        rw [hsort] at hnodup
        simp only [List.map_cons, List.nodup_cons, List.mem_cons] at hnodup
        split
        · next hname =>
          simp only [List.map_cons, List.get?_cons_zero]
          intro hc
          injection hc with hc2
          exact hnodup.1 (Or.inl (by rw [hc2, hname]))
        · next hname =>
          simp only [List.map_cons, List.get?_cons_zero]
          intro hc
          injection hc with hc2
          exact hname hc2

/-- Witness for C7 at a concrete non-user message. -/
theorem c7_user_demotion_witness :
    (⟨"Alice Bob".toList, false⟩ : Msg).is_user = false ∧
    getUserName [] ["Alice", "Bob"] = some "Alice" ∧
    ("Alice" : String).isEmpty = false ∧
    (["Alice", "Bob"] : List String).Nodup ∧
    (2 ≤ (sortItems (presenceItems []
        (spansOf (⟨"Alice Bob".toList, false⟩ : Msg).text) ["Alice", "Bob"])).length →
      (getPresentOrderedNames [] [] ⟨"Alice Bob".toList, false⟩ ["Alice", "Bob"]).get? 0
        ≠ some "Alice") :=
  ⟨rfl, by decide, by decide, by decide,
    (c7_user_demotion [] [] ⟨"Alice Bob".toList, false⟩ ["Alice", "Bob"] "Alice"
      rfl (by decide) (by decide) (by decide)).2.2⟩

/-! ## C10: resolver output invariants -/

/-- C10: for any message and duplicate-free master list, the resolver's
output has no duplicate names, every returned name is a master name or
the resolved `USER_NAME`, and the output length is at most the master
list length plus one. -/
theorem c10_resolver_invariants (members exclude : List String) (msg : Msg)
    (masters : List String) (hnd : masters.Nodup) :
    (getPresentOrderedNames members exclude msg masters).Nodup ∧
    (∀ n ∈ getPresentOrderedNames members exclude msg masters,
      n ∈ masters ∨ getUserName members masters = some n) ∧
    (getPresentOrderedNames members exclude msg masters).length ≤ masters.length + 1 := by
  unfold getPresentOrderedNames
  split
  · -- empty user message short circuit
    split
    · next u hu =>
      split
      · exact ⟨List.nodup_nil, by simp, by simp⟩
      · refine ⟨List.nodup_singleton u, ?_, by simp⟩
        intro n hn
        rcases List.mem_singleton.mp hn with rfl
        exact Or.inr hu
    · exact ⟨List.nodup_nil, by simp, by simp⟩
  · -- main path
    have hsub := presenceItems_names_sublist exclude (spansOf msg.text) masters
    have hnd0 := hsub.nodup hnd
    have hmem0 : ∀ n ∈ (presenceItems exclude (spansOf msg.text) masters).map PItem.name,
        n ∈ masters := fun n hn => hsub.subset hn
    have hlen0 : (presenceItems exclude (spansOf msg.text) masters).length ≤ masters.length := by
      have := hsub.length_le
      simpa using this
    have hperm : List.Perm (forcePhase msg.is_user (getUserName members masters)
        (demotePhase msg.is_user (getUserName members masters)
          (sortItems (ensurePhase msg.is_user (getUserName members masters)
            (presenceItems exclude (spansOf msg.text) masters)))))
        (ensurePhase msg.is_user (getUserName members masters)
          (presenceItems exclude (spansOf msg.text) masters)) :=
      ((forcePhase_perm _ _ _).trans (demotePhase_perm _ _ _)).trans (sortItems_perm _)
    have hpermn := hperm.map PItem.name
    rcases ensurePhase_names msg.is_user (getUserName members masters)
        (presenceItems exclude (spansOf msg.text) masters) with hsame | ⟨u, hu, happ, hnotin⟩
    · refine ⟨(List.Perm.nodup_iff (hsame ▸ hpermn)).mpr hnd0, ?_, ?_⟩
      · intro n hn
        exact Or.inl (hmem0 n ((hsame ▸ hpermn).subset hn))
      · have hl := hpermn.length_eq
        rw [hsame] at hl
        simp only [List.length_map] at hl ⊢
        omega
    · have hnd2 : ((presenceItems exclude (spansOf msg.text) masters).map PItem.name
          ++ [u]).Nodup := by
        rw [List.nodup_append]
        exact ⟨hnd0, List.nodup_singleton u,
          fun a ha hb => by rcases List.mem_singleton.mp hb with rfl; exact hnotin ha⟩
      refine ⟨(List.Perm.nodup_iff (happ ▸ hpermn)).mpr hnd2, ?_, ?_⟩
      · intro n hn
        have := (happ ▸ hpermn).subset hn
        rcases List.mem_append.mp this with hin | hin
        · exact Or.inl (hmem0 n hin)
        · rcases List.mem_singleton.mp hin with rfl
          exact Or.inr hu
      · have hl := hpermn.length_eq
        rw [happ] at hl
        simp only [List.length_append, List.length_map, List.length_singleton] at hl
        simp only [List.length_map]
        omega

/-- Witness for C10 at a concrete message and master list. -/
theorem c10_resolver_invariants_witness :
    (["Alice", "Bob", "Carol"] : List String).Nodup ∧
    (getPresentOrderedNames [] [] ⟨"(Alice) Bob Alice".toList, false⟩
      ["Alice", "Bob", "Carol"]).Nodup ∧
    (getPresentOrderedNames [] [] ⟨"(Alice) Bob Alice".toList, false⟩
      ["Alice", "Bob", "Carol"]).length ≤ (["Alice", "Bob", "Carol"] : List String).length + 1 :=
  ⟨by decide,
    (c10_resolver_invariants [] [] ⟨"(Alice) Bob Alice".toList, false⟩
      ["Alice", "Bob", "Carol"] (by decide)).1,
    (c10_resolver_invariants [] [] ⟨"(Alice) Bob Alice".toList, false⟩
      ["Alice", "Bob", "Carol"] (by decide)).2.2⟩

/-! ## Roster engine lemmas (towards C4) -/

theorem removeName_nameList (st : RosterState) (n : String) :
    (removeName st n).nameList = st.nameList.erase n := by
  unfold removeName
  split
  · rfl
  · split
    · rfl
    · rfl

theorem removeFold_nameList : ∀ (removed : List String) (st : RosterState),
    (removed.foldl removeName st).nameList =
      removed.foldl (fun l n => l.erase n) st.nameList := by
  intro removed
  induction removed with
  | nil => intro st; rfl
  | cons r rs ih =>
    intro st
    simp only [List.foldl_cons]
    rw [ih, removeName_nameList]

theorem foldl_erase_cons (x : String) :
    ∀ (ys l : List String), (∀ y ∈ ys, y ≠ x) →
      ys.foldl (fun acc z => acc.erase z) (x :: l) =
        x :: ys.foldl (fun acc z => acc.erase z) l := by
  intro ys
  induction ys with
  | nil => intro l _; rfl
  | cons y ys ih =>
    intro l hy
    simp only [List.foldl_cons]
    have hne : ¬ (x == y) = true := by
      simp only [beq_iff_eq]
      intro hc
      exact hy y (List.mem_cons_self y ys) hc.symm
    rw [List.erase_cons, if_neg hne]
    exact ih (l.erase y) (fun z hz => hy z (List.mem_cons_of_mem y hz))

theorem eraseFold_filter (p : String → Bool) :
    ∀ l : List String,
      (l.filter (fun x => !p x)).foldl (fun acc x => acc.erase x) l = l.filter p := by
  intro l
  induction l with
  | nil => rfl
  | cons x xs ih =>
    cases hp : p x with
    | true =>
      have hfil : (x :: xs).filter (fun y => !p y) = xs.filter (fun y => !p y) := by
        simp [List.filter_cons, hp]
      have hfil2 : (x :: xs).filter p = x :: xs.filter p := by
        simp [List.filter_cons, hp]
      rw [hfil, hfil2, foldl_erase_cons x _ xs ?_, ih]
      intro y hy hc
      have hmem := List.of_mem_filter hy
      rw [hc] at hmem
      simp [hp] at hmem
    | false =>
      have hfil : (x :: xs).filter (fun y => !p y) = x :: xs.filter (fun y => !p y) := by
        simp [List.filter_cons, hp]
      have hfil2 : (x :: xs).filter p = xs.filter p := by
        simp [List.filter_cons, hp]
      rw [hfil, hfil2]
      simp only [List.foldl_cons]
      rw [List.erase_cons_head]
      exact ih

theorem shrinkLoop_noop {cap : Int} {side : List String} (fuel : Nat)
    (h : cap = -1 ∨ (side.length : Int) ≤ cap) : shrinkLoop cap fuel side = (side, []) := by
  cases fuel with
  | zero => rfl
  | succ fuel =>
    unfold shrinkLoop
    rw [if_neg]
    rintro ⟨h1, h2⟩
    rcases h with h | h
    · exact h1 h
    · omega

theorem shrinkLoop_bound {cap : Int} (hc : 0 ≤ cap) :
    ∀ (fuel : Nat) (side : List String), side.length ≤ fuel →
      ((shrinkLoop cap fuel side).1.length : Int) ≤ cap := by
  intro fuel
  induction fuel with
  | zero =>
    intro side hlen
    unfold shrinkLoop
    simp only []
    omega
  | succ fuel ih =>
    intro side hlen
    unfold shrinkLoop
    split
    · next hcond =>
      cases hg : side.getLast? with
      | none =>
        have hnil : side = [] := by
          cases side with
          | nil => rfl
          | cons a l => simp [List.getLast?_cons] at hg
        rw [hnil] at hcond
        simp at hcond
        omega
      | some last =>
        simp only []
        have := ih side.dropLast (by rw [List.length_dropLast]; omega)
        exact this
    · next hcond =>
      have h2 : ¬ (cap < (side.length : Int)) := fun hlt => hcond ⟨by omega, hlt⟩
      simp only []
      omega

theorem placeAttempt_nameList (caps : Caps) (st : RosterState) (n : String) :
    (placeAttempt caps st n).1.nameList = st.nameList := by
  unfold placeAttempt
  split
  · rfl
  · split
    · rfl
    · split
      · rfl
      · rfl

theorem placeAttempt_current_some (caps : Caps) (st : RosterState) (n : String)
    (h : st.current ≠ none) : (placeAttempt caps st n).1.current = st.current := by
  unfold placeAttempt
  split
  · next hc => exact absurd hc h
  · split
    · rfl
    · split
      · rfl
      · rfl

theorem placeAttempt_sideOk (caps : Caps) (st : RosterState) (n : String)
    (hL : sideOk caps.numLeft st.left) (hR : sideOk caps.numRight st.right) :
    sideOk caps.numLeft (placeAttempt caps st n).1.left ∧
      sideOk caps.numRight (placeAttempt caps st n).1.right := by
  unfold placeAttempt
  split
  · exact ⟨hL, hR⟩
  · split
    · next hcond =>
      refine ⟨?_, hR⟩
      rcases hcond.1 with hlt | hm1
      · right
        simp only [List.length_append, List.length_singleton]
        push_cast
        omega
      · exact Or.inl hm1
    · split
      · next hcond2 =>
        refine ⟨hL, ?_⟩
        rcases hcond2 with hlt | hm1
        · right
          simp only [List.length_append, List.length_singleton]
          push_cast
          omega
        · exact Or.inl hm1
      · exact ⟨hL, hR⟩

theorem placeAttempt_mono (caps : Caps) (st : RosterState) (n m : String)
    (h : placedIn st m) : placedIn (placeAttempt caps st n).1 m := by
  unfold placeAttempt
  unfold placedIn at h
  split
  · next hc =>
    rcases h with h | h | h
    · exact Or.inl h
    · exact Or.inr (Or.inl h)
    · rw [hc] at h
      exact Option.noConfusion h
  · split
    · rcases h with h | h | h
      · exact Or.inl (List.mem_append_left _ h)
      · exact Or.inr (Or.inl h)
      · exact Or.inr (Or.inr h)
    · split
      · rcases h with h | h | h
        · exact Or.inl h
        · exact Or.inr (Or.inl (List.mem_append_left _ h))
        · exact Or.inr (Or.inr h)
      · exact h

theorem placeAttempt_places (caps : Caps) (st : RosterState) (n : String)
    (hcond : backfillCond caps st) : placedIn (placeAttempt caps st n).1 n := by
  unfold placeAttempt
  split
  · exact Or.inr (Or.inr rfl)
  · next c hc =>
    split
    · exact Or.inl (List.mem_append_right _ (List.mem_singleton_self n))
    · next hnleft =>
      split
      · exact Or.inr (Or.inl (List.mem_append_right _ (List.mem_singleton_self n)))
      · next hnright =>
        exfalso
        unfold backfillCond at hcond
        rw [hc] at hcond
        have hr : caps.numRight ≤ (st.right.length : Int) ∧ caps.numRight ≠ -1 := by
          constructor
          · by_contra hlt
            exact hnright (Or.inl (by omega))
          · intro hm1
            exact hnright (Or.inr hm1)
        have hl : (caps.numLeft ≤ (st.left.length : Int) ∧ caps.numLeft ≠ -1) := by
          by_contra hno
          apply hnleft
          constructor
          · by_cases h1 : caps.numLeft = -1
            · exact Or.inr h1
            · left
              by_contra h2
              exact hno ⟨by omega, h1⟩
          · exact Or.inr hr.1
        rcases hcond with h | h | h | h | h
        · exact hl.2 h
        · exact hr.2 h
        · omega
        · omega
        · exact Option.noConfusion h

theorem backfillLoopRev_nameList (caps : Caps) :
    ∀ (q : List String) (st : RosterState),
      (backfillLoopRev caps q st).nameList = st.nameList := by
  intro q
  induction q with
  | nil => intro st; rfl
  | cons n rest ih =>
    intro st
    unfold backfillLoopRev
    split
    · rw [ih, placeAttempt_nameList]
    · rfl

theorem backfillLoopRev_sideOk (caps : Caps) :
    ∀ (q : List String) (st : RosterState),
      sideOk caps.numLeft st.left → sideOk caps.numRight st.right →
      sideOk caps.numLeft (backfillLoopRev caps q st).left ∧
        sideOk caps.numRight (backfillLoopRev caps q st).right := by
  intro q
  induction q with
  | nil => intro st hL hR; exact ⟨hL, hR⟩
  | cons n rest ih =>
    intro st hL hR
    unfold backfillLoopRev
    split
    · have h2 := placeAttempt_sideOk caps st n hL hR
      exact ih _ h2.1 h2.2
    · exact ⟨hL, hR⟩

theorem backfillLoopRev_mono (caps : Caps) :
    ∀ (q : List String) (st : RosterState) (m : String),
      placedIn st m → placedIn (backfillLoopRev caps q st) m := by
  intro q
  induction q with
  | nil => intro st m h; exact h
  | cons n rest ih =>
    intro st m h
    unfold backfillLoopRev
    split
    · exact ih _ m (placeAttempt_mono caps st n m h)
    · exact h

theorem backfillLoopRev_noop (caps : Caps) (q : List String) (st : RosterState)
    (h : ¬ backfillCond caps st) : backfillLoopRev caps q st = st := by
  cases q with
  | nil => rfl
  | cons n rest =>
    unfold backfillLoopRev
    rw [if_neg h]

theorem backfillLoopRev_dichotomy (caps : Caps) :
    ∀ (q : List String) (st : RosterState),
      ¬ backfillCond caps (backfillLoopRev caps q st) ∨
        ∀ n ∈ q, placedIn (backfillLoopRev caps q st) n := by
  intro q
  induction q with
  | nil => intro st; exact Or.inr (by simp)
  | cons n rest ih =>
    intro st
    by_cases hc : backfillCond caps st
    · have hstep : backfillLoopRev caps (n :: rest) st =
          backfillLoopRev caps rest (placeAttempt caps st n).1 := by
        simp only [backfillLoopRev]
        rw [if_pos hc]
      rcases ih (placeAttempt caps st n).1 with hno | hall
      · rw [hstep]
        exact Or.inl hno
      · rw [hstep]
        refine Or.inr ?_
        intro m hm
        rcases List.mem_cons.mp hm with rfl | hm
        · exact backfillLoopRev_mono caps rest _ m (placeAttempt_places caps st m hc)
        · exact hall m hm
    · rw [backfillLoopRev_noop caps _ st hc]
      exact Or.inl hc

theorem computeQueue_mem_iff {st : RosterState} {n : String} :
    n ∈ computeQueue st ↔ n ∈ st.nameList ∧ ¬ placedIn st n := by
  unfold computeQueue placedIn
  rw [List.mem_filter]
  constructor
  · rintro ⟨hmem, hpred⟩
    simp only [Bool.and_eq_true, Bool.not_eq_true'] at hpred
    refine ⟨hmem, ?_⟩
    rintro (h | h | h)
    · rw [hasStr_iff.mpr h] at hpred
      simp at hpred
    · rw [hasStr_iff.mpr h] at hpred
      simp at hpred
    · rcases hpred with ⟨_, hcur⟩
      rw [decide_eq_false_iff_not] at hcur
      exact hcur h
  · rintro ⟨hmem, hnp⟩
    refine ⟨hmem, ?_⟩
    simp only [Bool.and_eq_true, Bool.not_eq_true']
    refine ⟨⟨?_, ?_⟩, ?_⟩
    · rw [← Bool.not_eq_true, hasStr_iff]
      exact fun h => hnp (Or.inl h)
    · rw [← Bool.not_eq_true, hasStr_iff]
      exact fun h => hnp (Or.inr (Or.inl h))
    · rw [decide_eq_false_iff_not]
      exact fun h => hnp (Or.inr (Or.inr h))

theorem addNames_nameList (caps : Caps) :
    ∀ (added : List String) (st : RosterState),
      (addNames caps st added).nameList = st.nameList ++ added := by
  intro added
  induction added with
  | nil => intro st; simp [addNames]
  | cons a rest ih =>
    intro st
    unfold addNames
    simp only [List.foldl_cons]
    have := ih (placeAttempt caps { st with nameList := st.nameList ++ [a] } a).1
    unfold addNames at this
    rw [this, placeAttempt_nameList]
    simp

theorem addNames_sideOk (caps : Caps) :
    ∀ (added : List String) (st : RosterState),
      sideOk caps.numLeft st.left → sideOk caps.numRight st.right →
      sideOk caps.numLeft (addNames caps st added).left ∧
        sideOk caps.numRight (addNames caps st added).right := by
  intro added
  induction added with
  | nil => intro st hL hR; exact ⟨hL, hR⟩
  | cons a rest ih =>
    intro st hL hR
    unfold addNames
    simp only [List.foldl_cons]
    have h2 := placeAttempt_sideOk caps { st with nameList := st.nameList ++ [a] } a hL hR
    exact ih _ h2.1 h2.2

theorem purgFold_state (caps : Caps) :
    ∀ (purg : List String) (st : RosterState) (ev : List String),
      (purg.foldl
        (fun acc n =>
          let r := placeAttempt caps acc.1 n
          (r.1, if r.2 then acc.2 else acc.2 ++ [n]))
        (st, ev)).1 =
      purg.foldl (fun s n => (placeAttempt caps s n).1) st := by
  intro purg
  induction purg with
  | nil => intro st ev; rfl
  | cons p rest ih =>
    intro st ev
    simp only [List.foldl_cons]
    exact ih _ _

theorem placeFoldSimple_nameList (caps : Caps) :
    ∀ (l : List String) (st : RosterState),
      (l.foldl (fun s n => (placeAttempt caps s n).1) st).nameList = st.nameList := by
  intro l
  induction l with
  | nil => intro st; rfl
  | cons a rest ih =>
    intro st
    simp only [List.foldl_cons]
    rw [ih, placeAttempt_nameList]

theorem placeFoldSimple_sideOk (caps : Caps) :
    ∀ (l : List String) (st : RosterState),
      sideOk caps.numLeft st.left → sideOk caps.numRight st.right →
      sideOk caps.numLeft (l.foldl (fun s n => (placeAttempt caps s n).1) st).left ∧
        sideOk caps.numRight (l.foldl (fun s n => (placeAttempt caps s n).1) st).right := by
  intro l
  induction l with
  | nil => intro st hL hR; exact ⟨hL, hR⟩
  | cons a rest ih =>
    intro st hL hR
    simp only [List.foldl_cons]
    have h2 := placeAttempt_sideOk caps st a hL hR
    exact ih _ h2.1 h2.2

theorem purgatoryPass_state_nameList (caps : Caps) (st : RosterState) (purg : List String) :
    (purgatoryPass caps st purg).1.nameList = st.nameList := by
  unfold purgatoryPass
  rw [purgFold_state, placeFoldSimple_nameList]

theorem purgatoryPass_state_sideOk (caps : Caps) (st : RosterState) (purg : List String)
    (hL : sideOk caps.numLeft st.left) (hR : sideOk caps.numRight st.right) :
    sideOk caps.numLeft (purgatoryPass caps st purg).1.left ∧
      sideOk caps.numRight (purgatoryPass caps st purg).1.right := by
  unfold purgatoryPass
  rw [purgFold_state]
  exact placeFoldSimple_sideOk caps purg st hL hR

theorem updateMembers_stages (caps : Caps) (ns : List String) (s : RosterState) :
    ∃ st4 : RosterState,
      (updateMembers caps ns s).1 = backfillLoopRev caps (computeQueue st4).reverse st4 ∧
      st4.nameList = s.nameList.filter (fun n => hasStr ns n) ++
        ns.filter (fun n => !hasStr s.nameList n) ∧
      ((caps.numLeft = -1 ∨ 0 ≤ caps.numLeft) → (caps.numRight = -1 ∨ 0 ≤ caps.numRight) →
        sideOk caps.numLeft st4.left ∧ sideOk caps.numRight st4.right) := by
  refine ⟨_, rfl, ?_, ?_⟩
  · rw [purgatoryPass_state_nameList, addNames_nameList]
    show (((s.nameList.filter (fun n => !hasStr ns n)).foldl removeName s).nameList ++
        ns.filter (fun n => !hasStr s.nameList n)) = _
    rw [removeFold_nameList, eraseFold_filter (fun n => hasStr ns n)]
  · intro hL hR
    have hbL : sideOk caps.numLeft
        (shrinkLoop caps.numLeft
          ((s.nameList.filter (fun n => !hasStr ns n)).foldl removeName s).left.length
          ((s.nameList.filter (fun n => !hasStr ns n)).foldl removeName s).left).1 := by
      rcases hL with hm1 | hpos
      · exact Or.inl hm1
      · exact Or.inr (shrinkLoop_bound hpos _ _ (Nat.le_refl _))
    have hbR : sideOk caps.numRight
        (shrinkLoop caps.numRight
          ((s.nameList.filter (fun n => !hasStr ns n)).foldl removeName s).right.length
          ((s.nameList.filter (fun n => !hasStr ns n)).foldl removeName s).right).1 := by
      rcases hR with hm1 | hpos
      · exact Or.inl hm1
      · exact Or.inr (shrinkLoop_bound hpos _ _ (Nat.le_refl _))
    have h2 := addNames_sideOk caps (ns.filter (fun n => !hasStr s.nameList n))
      { (s.nameList.filter (fun n => !hasStr ns n)).foldl removeName s with
        left := (shrinkLoop caps.numLeft
          ((s.nameList.filter (fun n => !hasStr ns n)).foldl removeName s).left.length
          ((s.nameList.filter (fun n => !hasStr ns n)).foldl removeName s).left).1,
        right := (shrinkLoop caps.numRight
          ((s.nameList.filter (fun n => !hasStr ns n)).foldl removeName s).right.length
          ((s.nameList.filter (fun n => !hasStr ns n)).foldl removeName s).right).1 } hbL hbR
    exact purgatoryPass_state_sideOk caps _ _ h2.1 h2.2

theorem updateMembers_post (caps : Caps) (ns : List String) (s : RosterState)
    (hL : caps.numLeft = -1 ∨ 0 ≤ caps.numLeft)
    (hR : caps.numRight = -1 ∨ 0 ≤ caps.numRight) :
    (∀ n ∈ (updateMembers caps ns s).1.nameList, hasStr ns n = true) ∧
    (∀ n ∈ ns, hasStr (updateMembers caps ns s).1.nameList n = true) ∧
    sideOk caps.numLeft (updateMembers caps ns s).1.left ∧
    sideOk caps.numRight (updateMembers caps ns s).1.right ∧
    (¬ backfillCond caps (updateMembers caps ns s).1 ∨
      computeQueue (updateMembers caps ns s).1 = []) := by
  obtain ⟨st4, hfin, hname, hok⟩ := updateMembers_stages caps ns s
  obtain ⟨hokL, hokR⟩ := hok hL hR
  have hnl : (updateMembers caps ns s).1.nameList = st4.nameList := by
    rw [hfin, backfillLoopRev_nameList]
  refine ⟨?_, ?_, ?_, ?_, ?_⟩
  · intro n hn
    rw [hnl, hname] at hn
    rcases List.mem_append.mp hn with h | h
    · exact (List.mem_filter.mp h).2
    · exact hasStr_iff.mpr (List.mem_filter.mp h).1
  · intro n hn
    rw [hnl, hname, hasStr_iff]
    by_cases hmem : hasStr s.nameList n = true
    · exact List.mem_append_left _
        (List.mem_filter.mpr ⟨hasStr_iff.mp hmem, hasStr_iff.mpr hn⟩)
    · have hfalse : hasStr s.nameList n = false := Bool.eq_false_iff.mpr hmem
      refine List.mem_append_right _ (List.mem_filter.mpr ⟨hn, ?_⟩)
      rw [hfalse]
      rfl
  · rw [hfin]
    exact (backfillLoopRev_sideOk caps _ st4 hokL hokR).1
  · rw [hfin]
    exact (backfillLoopRev_sideOk caps _ st4 hokL hokR).2
  · rcases backfillLoopRev_dichotomy caps (computeQueue st4).reverse st4 with hno | hall
    · rw [hfin]
      exact Or.inl hno
    · right
      rw [hfin]
      rw [List.eq_nil_iff_forall_not_mem]
      intro n hn
      obtain ⟨hn1, hn2⟩ := computeQueue_mem_iff.mp hn
      have h2 : ¬ placedIn st4 n := fun hp => hn2 (backfillLoopRev_mono caps _ st4 n hp)
      have h3 : n ∈ st4.nameList := by
        rwa [backfillLoopRev_nameList] at hn1
      have h5 : n ∈ (computeQueue st4).reverse :=
        List.mem_reverse.mpr (computeQueue_mem_iff.mpr ⟨h3, h2⟩)
      exact hn2 (hall n h5)

theorem updateMembers_fixpoint (caps : Caps) (ns : List String) (t : RosterState)
    (ha : ∀ n ∈ t.nameList, hasStr ns n = true)
    (hb : ∀ n ∈ ns, hasStr t.nameList n = true)
    (hcL : sideOk caps.numLeft t.left) (hcR : sideOk caps.numRight t.right)
    (hd : ¬ backfillCond caps t ∨ computeQueue t = []) :
    updateMembers caps ns t = (t, ⟨[], [], []⟩) := by
  have hrem : t.nameList.filter (fun n => !hasStr ns n) = [] := by
    rw [List.filter_eq_nil_iff]
    intro n hn
    simp [ha n hn]
  have hadd : ns.filter (fun n => !hasStr t.nameList n) = [] := by
    rw [List.filter_eq_nil_iff]
    intro n hn
    simp [hb n hn]
  have hshrL : shrinkLoop caps.numLeft t.left.length t.left = (t.left, []) :=
    shrinkLoop_noop _ hcL
  have hshrR : shrinkLoop caps.numRight t.right.length t.right = (t.right, []) :=
    shrinkLoop_noop _ hcR
  unfold updateMembers
  rw [hrem, hadd]
  simp only [List.foldl_nil, hshrL, hshrR, List.append_nil]
  show (backfillLoopRev caps
      (computeQueue (purgatoryPass caps (addNames caps t []) []).1).reverse
      (purgatoryPass caps (addNames caps t []) []).1,
    (⟨[], [], (purgatoryPass caps (addNames caps t []) []).2⟩ : Effects)) = (t, ⟨[], [], []⟩)
  show (backfillLoopRev caps (computeQueue t).reverse t, (⟨[], [], []⟩ : Effects)) =
    (t, ⟨[], [], []⟩)
  rcases hd with hno | hq
  · rw [backfillLoopRev_noop caps _ t hno]
  · rw [hq]
    rfl

/-! ## C4: refresh idempotence -/

/-- C4: with capacities in the settings range (`-1` or non-negative), a
second `updateMembers` call with the same desired names and unchanged
capacities is a no-op: the roster state is unchanged and the second call
reports no detach, attach, or eviction effects. -/
theorem c4_refresh_idempotent (caps : Caps) (ns : List String) (s : RosterState)
    (hL : caps.numLeft = -1 ∨ 0 ≤ caps.numLeft)
    (hR : caps.numRight = -1 ∨ 0 ≤ caps.numRight) :
    updateMembers caps ns (updateMembers caps ns s).1 =
      ((updateMembers caps ns s).1, ⟨[], [], []⟩) := by
  obtain ⟨ha, hb, hokL, hokR, hd⟩ := updateMembers_post caps ns s hL hR
  exact updateMembers_fixpoint caps ns _ ha hb hokL hokR hd

/-- Witness for C4 at the concrete capacities and names of the C1
scenario. -/
theorem c4_refresh_idempotent_witness :
    ((1 : Int) = -1 ∨ (0 : Int) ≤ 1) ∧
    updateMembers ⟨1, 1⟩ ["A", "B", "C"]
        (updateMembers ⟨1, 1⟩ ["A", "B", "C"] ⟨[], [], [], none⟩).1 =
      ((updateMembers ⟨1, 1⟩ ["A", "B", "C"] ⟨[], [], [], none⟩).1, ⟨[], [], []⟩) :=
  ⟨by decide,
    c4_refresh_idempotent ⟨1, 1⟩ ["A", "B", "C"] ⟨[], [], [], none⟩
      (by decide) (by decide)⟩

/-! ## History-order lemmas (towards C8) -/

theorem insertByIdx_perm (x : String × Nat) :
    ∀ l, List.Perm (insertByIdx x l) (x :: l) := by
  intro l
  induction l with
  | nil => exact List.Perm.refl _
  | cons y ys ih =>
    simp only [insertByIdx]
    split
    · exact List.Perm.refl _
    · exact (ih.cons y).trans (List.Perm.swap x y ys)

theorem sortFold_perm :
    ∀ (l acc : List (String × Nat)),
      List.Perm (l.foldl (fun acc x => insertByIdx x acc) acc) (acc ++ l) := by
  intro l
  induction l with
  | nil => intro acc; simp
  | cons x xs ih =>
    intro acc
    simp only [List.foldl_cons]
    refine (ih (insertByIdx x acc)).trans ?_
    refine (List.Perm.append_right xs (insertByIdx_perm x acc)).trans ?_
    exact (List.perm_middle).symm

theorem sortByIdx_perm (l : List (String × Nat)) : List.Perm (sortByIdx l) l := by
  have := sortFold_perm l []
  simpa [sortByIdx] using this

theorem insertByIdx_sorted (x : String × Nat) :
    ∀ {l : List (String × Nat)}, List.Pairwise (fun a b => a.2 ≤ b.2) l →
      List.Pairwise (fun a b => a.2 ≤ b.2) (insertByIdx x l) := by
  intro l
  induction l with
  | nil => intro _; exact List.pairwise_singleton _ _
  | cons y ys ih =>
    intro h
    rcases List.pairwise_cons.mp h with ⟨hy, hys⟩
    simp only [insertByIdx]
    split
    · next hlt =>
      refine List.pairwise_cons.mpr ⟨?_, h⟩
      intro z hz
      rcases List.mem_cons.mp hz with rfl | hz
      · omega
      · have := hy z hz
        omega
    · next hge =>
      refine List.pairwise_cons.mpr ⟨?_, ih hys⟩
      intro z hz
      have hz3 : z ∈ x :: ys := (insertByIdx_perm x ys).mem_iff.mp hz
      rcases List.mem_cons.mp hz3 with rfl | hz3
      · omega
      · exact hy z hz3

theorem sortFold_sorted :
    ∀ (l acc : List (String × Nat)),
      List.Pairwise (fun a b => a.2 ≤ b.2) acc →
      List.Pairwise (fun a b => a.2 ≤ b.2) (l.foldl (fun acc x => insertByIdx x acc) acc) := by
  intro l
  induction l with
  | nil => intro acc h; exact h
  | cons x xs ih =>
    intro acc h
    simp only [List.foldl_cons]
    exact ih _ (insertByIdx_sorted x h)

theorem sortByIdx_sorted (l : List (String × Nat)) :
    List.Pairwise (fun a b => a.2 ≤ b.2) (sortByIdx l) :=
  sortFold_sorted l [] List.Pairwise.nil

theorem gotStep_mem {members : List String} {mes : ChatMsg} {p : String × Nat}
    (h : p ∈ gotStep members mes) :
    p.1 ∈ members ∧ (firstMatchCS p.1.toList mes.mes).isSome = true ∧
      csIdx p.1 mes.mes = p.2 := by
  unfold gotStep at h
  rcases List.mem_filterMap.mp h with ⟨m, hm, hf⟩
  cases hfm : firstMatchCS m.toList mes.mes with
  | none =>
    rw [hfm] at hf
    exact Option.noConfusion hf
  | some pe =>
    rw [hfm] at hf
    simp only [Option.map, Option.some.injEq] at hf
    subst hf
    refine ⟨hm, by rw [hfm]; rfl, ?_⟩
    unfold csIdx
    rw [hfm]

theorem dedupFirstAux_sublist (seen : List String) :
    ∀ l, List.Sublist (dedupFirstAux seen l) l := by
  intro l
  induction l generalizing seen with
  | nil => exact List.Sublist.refl _
  | cons x xs ih =>
    simp only [dedupFirstAux]
    split
    · exact (ih seen).cons x
    · exact (ih (x :: seen)).cons₂ x

theorem dedupFirstAux_nodup (seen : List String) :
    ∀ l, (dedupFirstAux seen l).Nodup ∧
      ∀ x ∈ dedupFirstAux seen l, hasStr seen x = false := by
  intro l
  induction l generalizing seen with
  | nil => exact ⟨List.nodup_nil, by simp [dedupFirstAux]⟩
  | cons x xs ih =>
    simp only [dedupFirstAux]
    split
    · exact ih seen
    · next hseen =>
      obtain ⟨hnd, hall⟩ := ih (x :: seen)
      refine ⟨List.nodup_cons.mpr ⟨?_, hnd⟩, ?_⟩
      · intro hmem
        have := hall x hmem
        rw [Bool.eq_false_iff] at this
        exact this (hasStr_iff.mpr (List.mem_cons_self x seen))
      · intro z hz
        rcases List.mem_cons.mp hz with rfl | hz
        · exact Bool.eq_false_iff.mpr hseen
        · have := hall z hz
          rw [Bool.eq_false_iff] at this ⊢
          intro hc
          exact this (hasStr_iff.mpr (List.mem_cons_of_mem x (hasStr_iff.mp hc)))

theorem dedupFirst_sublist (l : List String) : List.Sublist (dedupFirst l) l :=
  dedupFirstAux_sublist [] l

theorem dedupFirst_nodup (l : List String) : (dedupFirst l).Nodup :=
  (dedupFirstAux_nodup [] l).1

/-! ## C8: history tie-break -/

/-- C8, counterexample: the history scanner's regex has no `i` flag, so
against the message `'Alice and Bob'` the member `alice` is not matched
at all (the presence counter's case-insensitive rule would match it),
and `getOrderFromText` returns only `[Bob]` instead of an order with
`alice` tie-broken by its earlier match position. -/
theorem c8_history_counterexample :
    getOrderFromText ["alice", "Bob"] [⟨"Alice and Bob".toList, false, false⟩] = ["Bob"] ∧
    (firstMatchFrom true "alice".toList "Alice and Bob".toList 0).isSome = true ∧
    "alice" ∉ getOrderFromText ["alice", "Bob"] [⟨"Alice and Bob".toList, false, false⟩] := by
  refine ⟨by decide, by decide, by decide⟩

/-- C8 (amended): in the history-derived ordering, names observed in the
same message are ordered by the position of their earliest
**case-sensitive** word-bounded match (the history scanner builds its
regexes without the `i` flag, unlike the presence counter): for a single
non-system, non-user message, every returned name is a member with a
case-sensitive match, the result is sorted by ascending first-match
index, and carries no duplicates. -/
theorem c8_history_tiebreak (members : List String) (msg : ChatMsg)
    (hs : msg.is_system = false) (hu : msg.is_user = false) :
    (∀ n ∈ getOrderFromText members [msg],
      n ∈ members ∧ (firstMatchCS n.toList msg.mes).isSome = true) ∧
    List.Pairwise (fun a b => csIdx a msg.mes ≤ csIdx b msg.mes)
      (getOrderFromText members [msg]) ∧
    (getOrderFromText members [msg]).Nodup := by
  have hout : getOrderFromText members [msg] =
      dedupFirst ((sortByIdx (gotStep members msg)).map (fun p => p.1)) := by
    unfold getOrderFromText
    simp [hs, hu, getOrderFromTextLoop]
  have hmemsorted : ∀ p ∈ sortByIdx (gotStep members msg), p ∈ gotStep members msg :=
    fun p hp => (sortByIdx_perm (gotStep members msg)).subset hp
  refine ⟨?_, ?_, ?_⟩
  · intro n hn
    rw [hout] at hn
    have hn2 := (dedupFirst_sublist _).subset hn
    rcases List.mem_map.mp hn2 with ⟨p, hp, hname⟩
    obtain ⟨h1, h2, _⟩ := gotStep_mem (hmemsorted p hp)
    subst hname
    exact ⟨h1, h2⟩
  · rw [hout]
    refine List.Pairwise.sublist (dedupFirst_sublist _) ?_
    rw [List.pairwise_map]
    refine List.Pairwise.imp_of_mem ?_ (sortByIdx_sorted (gotStep members msg))
    intro a b ha hb hle
    have hia := (gotStep_mem (hmemsorted a ha)).2.2
    have hib := (gotStep_mem (hmemsorted b hb)).2.2
    rw [hia, hib]
    exact hle
  · rw [hout]
    exact dedupFirst_nodup _

/-- Witness for C8 (amended) at a concrete message. -/
theorem c8_history_tiebreak_witness :
    (⟨"Alice and Bob".toList, false, false⟩ : ChatMsg).is_system = false ∧
    (⟨"Alice and Bob".toList, false, false⟩ : ChatMsg).is_user = false ∧
    List.Pairwise
      (fun a b => csIdx a "Alice and Bob".toList ≤ csIdx b "Alice and Bob".toList)
      (getOrderFromText ["Alice", "Bob"] [⟨"Alice and Bob".toList, false, false⟩]) :=
  ⟨rfl, rfl,
    (c8_history_tiebreak ["Alice", "Bob"] ⟨"Alice and Bob".toList, false, false⟩ rfl rfl).2.1⟩

/-! ## Debounce lemmas and C9 -/

theorem debRun_aux (w : Nat) :
    ∀ (ts : List Nat) (prev : Nat) (s : DebCtx) (id : Nat),
      s.pending = some id → s.deadline = some (prev + w) →
      List.Chain (fun a b => b < a + w) prev ts →
      (debRun w ts s).2.1 = List.replicate ts.length id ∧
        (debRun w ts s).2.2 = [id] := by
  intro ts
  induction ts with
  | nil =>
    intro prev s id hp hd _
    unfold debRun
    split
    · unfold debFire
      rw [hp]
      exact ⟨rfl, rfl⟩
    · next hnone =>
      rw [hd] at hnone
      exact Option.noConfusion hnone
  | cons t rest ih =>
    intro prev s id hp hd hch
    obtain ⟨h1, h2⟩ := List.chain_cons.mp hch
    unfold debRun
    split
    · next d hdd =>
      rw [hd] at hdd
      injection hdd with hdd2
      rw [if_neg (by omega)]
      unfold debCall
      rw [hp]
      have hrec := ih t ⟨s.nextId, some id, some (t + w)⟩ id rfl rfl h2
      simp only [List.length_cons, List.replicate_succ]
      exact ⟨by rw [hrec.1], hrec.2⟩
    · next hnone =>
      rw [hd] at hnone
      exact Option.noConfusion hnone

/-- C9: N debounced invocations, each within the window of the previous
one, hand every caller the same shared promise and execute the wrapped
function exactly once (resolving exactly that promise); and a call of
the restart body while the re-entrancy flag is up performs no tear-down
or set-up. -/
theorem c9_debounce_coalescing (w t : Nat) (ts : List Nat)
    (hch : List.Chain (fun a b => b < a + w) t ts) :
    ((debRun w (t :: ts) ⟨0, none, none⟩).2.1 = List.replicate (t :: ts).length 0 ∧
      (debRun w (t :: ts) ⟨0, none, none⟩).2.2 = [0]) ∧
    restartBody true = (true, []) := by
  refine ⟨?_, rfl⟩
  have hstep : debRun w (t :: ts) ⟨0, none, none⟩ =
      ((debRun w ts ⟨1, some 0, some (t + w)⟩).1,
        0 :: (debRun w ts ⟨1, some 0, some (t + w)⟩).2.1,
        (debRun w ts ⟨1, some 0, some (t + w)⟩).2.2) := rfl
  have haux := debRun_aux w ts t ⟨1, some 0, some (t + w)⟩ 0 rfl rfl hch
  rw [hstep]
  simp only [List.length_cons, List.replicate_succ]
  exact ⟨by rw [haux.1], haux.2⟩

/-- Witness for C9 with three calls inside a 300 ms window. -/
theorem c9_debounce_coalescing_witness :
    List.Chain (fun a b => b < a + 300) 0 [100, 200] ∧
    (((debRun 300 [0, 100, 200] ⟨0, none, none⟩).2.1 =
        List.replicate ([0, 100, 200] : List Nat).length 0 ∧
      (debRun 300 [0, 100, 200] ⟨0, none, none⟩).2.2 = [0]) ∧
    restartBody true = (true, [])) :=
  ⟨List.Chain.cons (by omega) (List.Chain.cons (by omega) List.Chain.nil),
    c9_debounce_coalescing 300 0 [100, 200]
      (List.Chain.cons (by omega) (List.Chain.cons (by omega) List.Chain.nil))⟩

end NE

